import Mathlib

/-!
Verification development for the StudyPilot study-companion application
(`app.py`).  Python strings are modelled as lists of characters (`PyStr`),
so that Python's code-point indexing and slicing are exact.  Pure Python
functions of the repository are translated into executable Lean functions;
stdlib routines they call (`str.strip`, `str.splitlines`, `textwrap.wrap`,
`pathlib` stem/suffix, `str(int)`) are modelled alongside, at the level of
detail the verified properties depend on.  Loops whose termination is not
structural are written with an explicit fuel argument that is always
sufficient for the initial call, keeping every definition kernel-executable.
-/

namespace StudyPilot

/-- Python strings as lists of Unicode code points. -/
abbrev PyStr := List Char

/-- Coerce a Lean string literal to the Python string model. -/
def pys (s : String) : PyStr := s.data

/-- Characters removed by Python's `str.strip()` with no argument
(Unicode whitespace, per `str.isspace`). -/
def isPySpace (c : Char) : Bool :=
  c == ' ' || c == '\t' || c == '\n' || c == '\r' ||
  c == Char.ofNat 11 || c == Char.ofNat 12 ||
  c == Char.ofNat 28 || c == Char.ofNat 29 || c == Char.ofNat 30 || c == Char.ofNat 31 ||
  c == Char.ofNat 133 || c == Char.ofNat 160 || c == Char.ofNat 5760 ||
  (8192 ≤ c.toNat && c.toNat ≤ 8202) ||
  c == Char.ofNat 8232 || c == Char.ofNat 8233 ||
  c == Char.ofNat 8239 || c == Char.ofNat 8287 || c == Char.ofNat 12288

/-- Python `str.lstrip()`. -/
def pyLStrip (l : PyStr) : PyStr := l.dropWhile isPySpace

/-- Python `str.rstrip()`. -/
def pyRStrip (l : PyStr) : PyStr := (l.reverse.dropWhile isPySpace).reverse

/-- Python `str.strip()`. -/
def pyStrip (l : PyStr) : PyStr := pyRStrip (pyLStrip l)

/-- Python `str.lower()` (simple per-character case mapping). -/
def pyLower (l : PyStr) : PyStr := l.map Char.toLower

/-- Python `str.upper()` (simple per-character case mapping). -/
def pyUpper (l : PyStr) : PyStr := l.map Char.toUpper

/-- Line-boundary characters recognised by Python `str.splitlines()`. -/
def isLineBoundaryChar (c : Char) : Bool :=
  c == '\n' || c == '\r' || c == Char.ofNat 11 || c == Char.ofNat 12 ||
  c == Char.ofNat 28 || c == Char.ofNat 29 || c == Char.ofNat 30 ||
  c == Char.ofNat 133 || c == Char.ofNat 8232 || c == Char.ofNat 8233

/-- Worker for `py_splitlines`; the fuel argument dominates the number of
boundary characters and is always sufficient at the initial call. -/
def pySplitlinesAux : ℕ → List Char → List PyStr
  | _, [] => []
  | 0, l => [l]
  | fuel + 1, l =>
    let line := l.takeWhile (fun c => !isLineBoundaryChar c)
    match l.dropWhile (fun c => !isLineBoundaryChar c) with
    | [] => [line]
    | '\r' :: '\n' :: rest => line :: pySplitlinesAux fuel rest
    | _ :: rest => line :: pySplitlinesAux fuel rest

/-- Python `str.splitlines()`: splits on `\n`, `\r`, `\r\n` and the other
Unicode line boundaries; a trailing boundary does not produce a final
empty line. -/
def py_splitlines (l : PyStr) : List PyStr := pySplitlinesAux l.length l

/-- The backtick character (written via its code point). -/
def backquote : Char := Char.ofNat 96

/-- Scanner for the non-greedy closing pair of `re.sub(r"\*\*(.+?)\*\*", ...)`:
given the text after an opening `mm`, finds the shortest non-empty inner text
(not containing a newline, as `.` does not match `\n`) followed by a closing
`mm`.  Returns the inner text and the remainder after the closing pair. -/
def findCloseGo (m : Char) : List Char → List Char → Option (List Char × List Char)
  | _, [] => none
  | accRev, c :: cs =>
    if accRev ≠ [] ∧ (c :: cs).take 2 = [m, m] then
      some (accRev.reverse, (c :: cs).drop 2)
    else if c = '\n' then none
    else findCloseGo m (c :: accRev) cs

/-- Worker for `subPair`: left-to-right scan of `re.sub` with the pattern
`mm(.+?)mm`, replacing each match by its inner text.  On a failed match
attempt the scan advances one character, as the regex engine does.  The fuel
dominates the remaining length and is always sufficient initially. -/
def subPairAux (m : Char) : ℕ → List Char → List Char
  | 0, l => l
  | _ + 1, [] => []
  | fuel + 1, c :: cs =>
    if c = m ∧ cs.take 1 = [m] then
      match findCloseGo m [] (cs.drop 1) with
      | some (inner, after) => inner ++ subPairAux m fuel after
      | none => c :: subPairAux m fuel cs
    else c :: subPairAux m fuel cs

/-- `re.sub(r"mm(.+?)mm", r"\1", text)` for a doubled marker character `m`
(used with `*` for `**bold**` and `_` for `__bold__`). -/
def subPair (m : Char) (l : List Char) : List Char := subPairAux m l.length l

/-- `strip_basic_markdown` from `app.py`: removes `**bold**` and `__bold__`
markers keeping the inner text, then removes every backtick
(`text.replace("`", "")`). -/
def strip_basic_markdown (text : PyStr) : PyStr :=
  (subPair '_' (subPair '*' text)).filter (fun c => c != backquote)

/-! ### Model of `textwrap.wrap` with default options

`textwrap.wrap(text, width=w)` with default settings: tabs are expanded
(tab size 8), the six ASCII whitespace characters are replaced by spaces,
the text is split into chunks, and lines are filled greedily, dropping
whitespace chunks at line boundaries and hard-breaking words longer than
the width (preferring to break after an interior hyphen, as
`TextWrapper._handle_long_word` does).  The model splits chunks at
whitespace only: the `wordsep_re` sub-splitting of hyphenated compounds and
em-dashes into separate chunks is not modelled (it only moves line-break
positions for such words), and chunk classification treats exactly the
space character as whitespace after normalisation. -/

/-- Python `str.expandtabs(tab)`: column-tracking tab expansion; `\n` and
`\r` reset the column. -/
def expandTabsAux (tab : ℕ) : ℕ → List Char → List Char
  | _, [] => []
  | col, c :: cs =>
    if c = '\t' then
      if 0 < tab then
        List.replicate (tab - col % tab) ' ' ++ expandTabsAux tab (col + (tab - col % tab)) cs
      else expandTabsAux tab col cs
    else if c = '\n' ∨ c = '\r' then c :: expandTabsAux tab 0 cs
    else c :: expandTabsAux tab (col + 1) cs

/-- The six characters of `textwrap`'s `_whitespace` string. -/
def isWrapWs (c : Char) : Bool :=
  c == '\t' || c == '\n' || c == Char.ofNat 11 || c == Char.ofNat 12 || c == '\r' || c == ' '

/-- `TextWrapper._munge_whitespace` with the default options: expand tabs,
then replace each `_whitespace` character by a single space. -/
def mungeWs (l : PyStr) : PyStr :=
  (expandTabsAux 8 0 l).map (fun c => if isWrapWs c then ' ' else c)

/-- Two characters are in the same chunk class iff both are the space
character or neither is. -/
def sameSpaceClass (a b : Char) : Bool := (a == ' ') == (b == ' ')

/-- Split the whitespace-normalised text into maximal runs of spaces and
maximal runs of non-spaces (the chunk list fed to `_wrap_chunks`). -/
def splitChunksAux : ℕ → List Char → List PyStr
  | _, [] => []
  | 0, l => [l]
  | fuel + 1, c :: cs =>
    (c :: cs.takeWhile (sameSpaceClass c)) :: splitChunksAux fuel (cs.dropWhile (sameSpaceClass c))

/-- Chunk splitting for `textwrap` (see the section comment for the
idealisations). -/
def splitChunks (l : PyStr) : List PyStr := splitChunksAux l.length l

/-- A chunk that `chunk.strip() == ''` classifies as whitespace. -/
def isWsChunk (ch : PyStr) : Bool := ch.all (· == ' ')

/-- Index of the first element satisfying `p`, or `none` (Python
`str.find` / `list.index` style scanning). -/
def firstIdxAux {α : Type} (p : α → Bool) : List α → Option ℕ
  | [] => none
  | c :: cs => if p c then some 0 else (firstIdxAux p cs).map (· + 1)

/-- Last index of `c` in `l`, or `none` (Python `str.rfind` result `-1`). -/
def lastIdxOf (c : Char) (l : List Char) : Option ℕ :=
  match firstIdxAux (· == c) l.reverse with
  | some i => some (l.length - 1 - i)
  | none => none

/-- Greedy fill of one line: keep taking chunks while the running length
stays within the width.  Returns the chunks taken and the remainder. -/
def fillLine (w : ℕ) : ℕ → List PyStr → List PyStr × List PyStr
  | _, [] => ([], [])
  | curLen, ch :: rest =>
    if curLen + ch.length ≤ w then
      let r := fillLine w (curLen + ch.length) rest
      (ch :: r.1, r.2)
    else ([], ch :: rest)

/-- `TextWrapper._handle_long_word` with `break_long_words=True`: split the
front of an over-long chunk to fill the remaining space, preferring to break
just after the last interior hyphen in that window. -/
def handleLong (w curLen : ℕ) (chunk : PyStr) : PyStr × PyStr :=
  let spaceLeft := if w < 1 then 1 else w - curLen
  let e :=
    if spaceLeft < chunk.length then
      match lastIdxOf '-' (chunk.take spaceLeft) with
      | some h => if 0 < h ∧ (chunk.take h).any (· != '-') then h + 1 else spaceLeft
      | none => spaceLeft
    else spaceLeft
  (chunk.take e, chunk.drop e)

/-- The body of one iteration of the outer loop of `_wrap_chunks`, after
the optional leading-whitespace drop: fill greedily, hard-break an
over-long next chunk, drop a trailing whitespace chunk, and emit the
joined line if non-empty. -/
def oneLineBody (w : ℕ) (chunks1 : List PyStr) : Option PyStr × List PyStr :=
  let fr := fillLine w 0 chunks1
  let curLen := (fr.1.map List.length).sum
  let step :=
    match fr.2 with
    | ch :: rest2 =>
      if w < ch.length then
        let he := handleLong w curLen ch
        (fr.1 ++ [he.1], he.2 :: rest2)
      else (fr.1, fr.2)
    | [] => (fr.1, fr.2)
  let cur3 :=
    match step.1.getLast? with
    | some lastc => if isWsChunk lastc then step.1.dropLast else step.1
    | none => step.1
  (if cur3 = [] then none else some cur3.flatten, step.2)

/-- One iteration of the outer loop of `_wrap_chunks`: optionally drop a
leading whitespace chunk (only once a line has been emitted), then run the
iteration body. -/
def oneLine (w : ℕ) (linesEmitted : Bool) (chunks : List PyStr) : Option PyStr × List PyStr :=
  match chunks with
  | ch :: rest =>
    if linesEmitted ∧ isWsChunk ch then oneLineBody w rest else oneLineBody w (ch :: rest)
  | [] => oneLineBody w []

/-- The outer loop of `_wrap_chunks`.  The fuel dominates twice the total
chunk length plus the chunk count and is always sufficient initially. -/
def wrapChunksAux (w : ℕ) : ℕ → Bool → List PyStr → List PyStr
  | 0, _, _ => []
  | _ + 1, _, [] => []
  | fuel + 1, emitted, c :: cs =>
    match oneLine w emitted (c :: cs) with
    | (some ln, rest) => ln :: wrapChunksAux w fuel true rest
    | (none, rest) => wrapChunksAux w fuel emitted rest

/-- Total length of a chunk list. -/
def chunksLen (chunks : List PyStr) : ℕ := (chunks.map List.length).sum

/-- Model of `textwrap.wrap(text, width=w)` with default options (see the
section comment). -/
def pyWrap (w : ℕ) (text : PyStr) : List PyStr :=
  let chunks := splitChunks (mungeWs text)
  wrapChunksAux w (2 * (chunksLen chunks + chunks.length) + 2) false chunks

/-! ### The cheat-sheet layout engine (`build_cheatsheet_pdf`)

ReportLab's `canvas` is a rendering back end; the layout decisions of
`build_cheatsheet_pdf` (page size and budget, column geometry, the
character-budget heuristic, the markdown normalisation pass, and the
column/page cursor loop) are all computed in `app.py` itself and are
modelled here.  Coordinates are exact rationals; all comparisons performed
by the code have enough slack that binary floating point and exact rational
arithmetic agree on them.  The result records the final page number (the
number of pages in the produced PDF), the body lines actually drawn via
`textLine`, and the full normalised line list. -/

/-- One point per unit; `inch = 72` points (`reportlab.lib.units.inch`). -/
def inch : ℚ := 72

/-- The `letter` page size from `reportlab.lib.pagesizes`. -/
def letterW : ℚ := 612

/-- Height of the `letter` page size. -/
def letterH : ℚ := 792

/-- The layout parameters that `build_cheatsheet_pdf` derives from
`sheet_size` before processing the body. -/
structure SheetConfig where
  width : ℚ
  height : ℚ
  maxPages : ℕ
  numColumns : ℕ
  margin : ℚ
  titleFontSize : ℚ
  bodyFontSize : ℚ

/-- Page-size selection of `build_cheatsheet_pdf`: `"3x5"` is a 5in×3in
landscape card with one column and one page; any other value uses the
letter size with two columns, with one page for `"1_page"` and two
otherwise. -/
def sheetConfig (sheet_size : PyStr) : SheetConfig :=
  if sheet_size = pys "3x5" then
    { width := 5 * inch, height := 3 * inch, maxPages := 1, numColumns := 1,
      margin := 0.35 * inch, titleFontSize := 10, bodyFontSize := 7 }
  else
    { width := letterW, height := letterH,
      maxPages := if sheet_size = pys "1_page" then 1 else 2, numColumns := 2,
      margin := 0.75 * inch, titleFontSize := 14, bodyFontSize := 10 }

/-- Body line height: `body_font_size + 2`. -/
def lineHeight (cfg : SheetConfig) : ℚ := cfg.bodyFontSize + 2

/-- Column gap: `0.3 * inch` when there are two columns, otherwise `0`. -/
def columnGap (cfg : SheetConfig) : ℚ :=
  if cfg.numColumns = 1 then 0 else 0.3 * inch

/-- Column width as computed in `build_cheatsheet_pdf`. -/
def columnWidth (cfg : SheetConfig) : ℚ :=
  if cfg.numColumns = 1 then cfg.width - 2 * cfg.margin
  else (cfg.width - 2 * cfg.margin - columnGap cfg) / 2

/-- The per-line character budget:
`max(25, int(column_width / (body_font_size * 0.55)))`.  The quotient is
positive for every reachable configuration, so Python's truncation towards
zero agrees with the floor. -/
def maxCharsPerLine (cfg : SheetConfig) : ℕ :=
  max 25 (⌊columnWidth cfg / (cfg.bodyFontSize * 0.55)⌋).toNat

/-- The literal bullet marker that appears in the source file: the bytes of
the bullet glyph were mis-decoded into the three characters `‚`, `Ä`, `¢`
followed by a space, and the code compares and emits exactly those
characters. -/
def bulletMark : PyStr := pys "‚Ä¢ "

/-- The markdown normalisation performed on one body line: strip basic
markdown, then classify the stripped line as blank, heading (1–3 `#`
followed by a space), dash/glyph bullet, or plain text, producing the
word-wrapped output lines for that body line. -/
def processOne (w : ℕ) (raw_line : PyStr) : List PyStr :=
  let raw := strip_basic_markdown raw_line
  let stripped := pyStrip raw
  if stripped = [] then [[]]
  else if stripped.take 4 = pys "### " then
    let heading_text := pyStrip (stripped.drop 4)
    if heading_text = [] then [] else [] :: pyWrap w (pyUpper heading_text)
  else if stripped.take 3 = pys "## " then
    let heading_text := pyStrip (stripped.drop 3)
    if heading_text = [] then [] else [] :: pyWrap w (pyUpper heading_text)
  else if stripped.take 2 = pys "# " then
    let heading_text := pyStrip (stripped.drop 2)
    if heading_text = [] then [] else [] :: pyWrap w (pyUpper heading_text)
  else if stripped.take 2 = pys "- " ∨ stripped.take 4 = bulletMark then
    let bullet_text := pyStrip (stripped.drop 2)
    match (if pyWrap w bullet_text = [] then [([] : PyStr)] else pyWrap w bullet_text) with
    | [] => []
    | w0 :: ws => (bulletMark ++ w0) :: ws.map (fun s => pys "  " ++ s)
  else
    if pyWrap w stripped = [] then [[]] else pyWrap w stripped

/-- The full normalisation pass over the body. -/
def processedLines (w : ℕ) (body : PyStr) : List PyStr :=
  ((py_splitlines body).map (processOne w)).flatten

/-- The vertical start position returned by `start_page(1)`: the first page
reserves two title-font line heights below the top margin when the stripped
title is non-empty. -/
def yStart (cfg : SheetConfig) (title : PyStr) : ℚ :=
  if pyStrip title ≠ [] then cfg.height - cfg.margin - cfg.titleFontSize * 2
  else cfg.height - cfg.margin

/-- The drawing loop of `build_cheatsheet_pdf`: for each normalised line,
if the cursor has reached the bottom margin, advance to the next column,
or to a fresh page unless the page budget is exhausted (in which case all
remaining lines are discarded); then draw the line and move down one line
height.  Returns the final page number and the drawn lines. -/
def drawLines (cfg : SheetConfig) : List PyStr → ℕ → ℕ → ℚ → ℕ × List PyStr
  | [], page, _, _ => (page, [])
  | line :: rest, page, col, y =>
    if y ≤ cfg.margin then
      if col + 1 < cfg.numColumns then
        let r := drawLines cfg rest page (col + 1) (cfg.height - cfg.margin - lineHeight cfg)
        (r.1, line :: r.2)
      else if cfg.maxPages ≤ page then (page, [])
      else
        let r := drawLines cfg rest (page + 1) 0 (cfg.height - cfg.margin - lineHeight cfg)
        (r.1, line :: r.2)
    else
      let r := drawLines cfg rest page col (y - lineHeight cfg)
      (r.1, line :: r.2)

/-- Result of the layout engine: number of pages in the document, the body
lines drawn, and the full normalised line list. -/
structure BuildResult where
  pages : ℕ
  drawn : List PyStr
  processed : List PyStr
deriving DecidableEq

/-- Model of `build_cheatsheet_pdf(title, body, sheet_size)`: configuration,
normalisation pass, then the column/page drawing loop starting on page 1,
column 0, at the title-adjusted start position. -/
def build_cheatsheet_pdf (title body sheet_size : PyStr) : BuildResult :=
  let cfg := sheetConfig sheet_size
  let w := maxCharsPerLine cfg
  let processed := processedLines w body
  let r := drawLines cfg processed 1 0 (yStart cfg title)
  { pages := r.1, drawn := r.2, processed := processed }

/-! ### Page-budget invariant of the drawing loop -/

lemma drawLines_pages_le (cfg : SheetConfig) (lines : List PyStr) :
    ∀ (page col : ℕ) (y : ℚ), page ≤ cfg.maxPages →
      (drawLines cfg lines page col y).1 ≤ cfg.maxPages := by
  induction lines with
  | nil => intro page col y h; simpa [drawLines] using h
  | cons line rest ih =>
    intro page col y h
    simp only [drawLines]
    split_ifs with h1 h2 h3
    · exact ih page (col + 1) _ h
    · exact h
    · exact ih (page + 1) 0 _ (by omega)
    · exact ih page col _ h

lemma drawLines_drawn_take (cfg : SheetConfig) (lines : List PyStr) :
    ∀ (page col : ℕ) (y : ℚ), ∃ n, (drawLines cfg lines page col y).2 = lines.take n := by
  induction lines with
  | nil => intro page col y; exact ⟨0, rfl⟩
  | cons line rest ih =>
    intro page col y
    simp only [drawLines]
    split_ifs with h1 h2 h3
    · obtain ⟨n, hn⟩ := ih page (col + 1) (cfg.height - cfg.margin - lineHeight cfg)
      exact ⟨n + 1, by simp [hn]⟩
    · exact ⟨0, rfl⟩
    · obtain ⟨n, hn⟩ := ih (page + 1) 0 (cfg.height - cfg.margin - lineHeight cfg)
      exact ⟨n + 1, by simp [hn]⟩
    · obtain ⟨n, hn⟩ := ih page col (y - lineHeight cfg)
      exact ⟨n + 1, by simp [hn]⟩

lemma sheetConfig_maxPages_pos (sheet_size : PyStr) :
    1 ≤ (sheetConfig sheet_size).maxPages := by
  unfold sheetConfig
  split_ifs <;> simp

lemma build_pages_le (title body sheet_size : PyStr) :
    (build_cheatsheet_pdf title body sheet_size).pages ≤ (sheetConfig sheet_size).maxPages :=
  drawLines_pages_le _ _ 1 0 _ (sheetConfig_maxPages_pos sheet_size)

/-- Claim C1: for each supported sheet size the produced document has at
most the configured maximum number of pages (`1` for `3x5` and `1_page`,
`2` for `2_page`), and once the page budget is reached no further
normalised lines are drawn: the drawn lines are always an initial segment
of the normalised line list (silent truncation, no error — the layout
engine is a total function). -/
theorem layout_respects_page_budget (title body : PyStr) :
    (build_cheatsheet_pdf title body (pys "3x5")).pages ≤ 1 ∧
    (build_cheatsheet_pdf title body (pys "1_page")).pages ≤ 1 ∧
    (build_cheatsheet_pdf title body (pys "2_page")).pages ≤ 2 ∧
    ∀ sheet_size : PyStr, ∃ n,
      (build_cheatsheet_pdf title body sheet_size).drawn =
        (build_cheatsheet_pdf title body sheet_size).processed.take n := by
  refine ⟨?_, ?_, ?_, fun sheet_size => ?_⟩
  · have h := build_pages_le title body (pys "3x5")
    have hm : (sheetConfig (pys "3x5")).maxPages = 1 := by decide
    omega
  · have h := build_pages_le title body (pys "1_page")
    have hm : (sheetConfig (pys "1_page")).maxPages = 1 := by decide
    omega
  · have h := build_pages_le title body (pys "2_page")
    have hm : (sheetConfig (pys "2_page")).maxPages = 2 := by decide
    omega
  · exact drawLines_drawn_take _ _ 1 0 _

/-- Claim C5: the layout engine is a total function of its inputs (it is
defined for every title, body and sheet size and returns a result rather
than raising); a heading marker deeper than three `#` is not matched by any
heading branch and is processed as a plain text line; and an empty body
yields a single page with no body lines drawn (the page carries only the
border and the title, which the renderer draws on page 1). -/
theorem engine_deep_heading_plain_and_empty_body :
    (∀ (w : ℕ) (raw : PyStr),
      (pyStrip (strip_basic_markdown raw)).take 4 = pys "####" →
      processOne w raw =
        (if pyWrap w (pyStrip (strip_basic_markdown raw)) = [] then [[]]
         else pyWrap w (pyStrip (strip_basic_markdown raw)))) ∧
    (∀ title sheet_size : PyStr,
      build_cheatsheet_pdf title [] sheet_size =
        { pages := 1, drawn := [], processed := [] }) := by
  constructor
  · intro w raw h
    have h3 : (pyStrip (strip_basic_markdown raw)).take 3 = pys "###" := by
      have := congrArg (List.take 3) h
      simpa [List.take_take] using this
    have h2 : (pyStrip (strip_basic_markdown raw)).take 2 = pys "##" := by
      have := congrArg (List.take 2) h
      simpa [List.take_take] using this
    have hne : pyStrip (strip_basic_markdown raw) ≠ [] := by
      intro hx
      rw [hx] at h
      exact absurd h (by decide)
    rw [processOne]
    rw [if_neg hne]
    rw [if_neg (by rw [h]; decide)]
    rw [if_neg (by rw [h3]; decide)]
    rw [if_neg (by rw [h2]; decide)]
    rw [if_neg (by rw [h2, h]; push_neg; exact ⟨by decide, by decide⟩)]
  · intro title sheet_size
    simp only [build_cheatsheet_pdf]
    rfl

/-- Witness for Claim C5 at concrete inputs: a four-`#` heading line is
emitted as plain wrapped text, and an empty body produces one page with no
body lines. -/
theorem engine_deep_heading_witness :
    (pyStrip (strip_basic_markdown (pys "#### Deep dive"))).take 4 = pys "####" ∧
    processOne 43 (pys "#### Deep dive") = [pys "#### Deep dive"] ∧
    build_cheatsheet_pdf (pys "Exam") [] (pys "3x5") =
      { pages := 1, drawn := [], processed := [] } := by
  refine ⟨by decide, ?_,
    engine_deep_heading_plain_and_empty_body.2 (pys "Exam") (pys "3x5")⟩
  have h := engine_deep_heading_plain_and_empty_body.1 43 (pys "#### Deep dive") (by decide)
  rw [h]
  decide

/-! ### Decimal rendering: model of Python `str(int)` for naturals -/

/-- The decimal digit characters. -/
def decChar : ℕ → Char
  | 0 => '0' | 1 => '1' | 2 => '2' | 3 => '3' | 4 => '4'
  | 5 => '5' | 6 => '6' | 7 => '7' | 8 => '8' | 9 => '9'
  | _ => 'x'

/-- Little-endian base-10 digits of `n`; the fuel dominates `n` and is
always sufficient at the initial call. -/
def decDigitsRev : ℕ → ℕ → List ℕ
  | 0, _ => []
  | fuel + 1, n => if n = 0 then [] else n % 10 :: decDigitsRev fuel (n / 10)

/-- Python `str(n)` for a natural number: standard decimal notation. -/
def natToChars (n : ℕ) : List Char :=
  if n = 0 then ['0'] else ((decDigitsRev n n).map decChar).reverse

/-- Value of a little-endian digit list. -/
def decVal : List ℕ → ℕ
  | [] => 0
  | d :: ds => d + 10 * decVal ds

lemma decDigitsRev_val : ∀ fuel n, n ≤ fuel → decVal (decDigitsRev fuel n) = n := by
  intro fuel
  induction fuel with
  | zero => intro n hn; interval_cases n; rfl
  | succ fuel ih =>
    intro n hn
    by_cases h0 : n = 0
    · subst h0; simp [decDigitsRev, decVal]
    · rw [decDigitsRev, if_neg h0]
      have hdiv : n / 10 ≤ fuel := by
        have : n / 10 < n := Nat.div_lt_self (Nat.pos_of_ne_zero h0) (by norm_num)
        omega
      rw [decVal, ih (n / 10) hdiv]
      omega

lemma decDigitsRev_lt_ten : ∀ fuel n d, d ∈ decDigitsRev fuel n → d < 10 := by
  intro fuel
  induction fuel with
  | zero => intro n d hd; simp [decDigitsRev] at hd
  | succ fuel ih =>
    intro n d hd
    rw [decDigitsRev] at hd
    split_ifs at hd with h0
    · simp at hd
    · rcases List.mem_cons.1 hd with h | h
      · subst h; exact Nat.mod_lt _ (by norm_num)
      · exact ih _ _ h

lemma decChar_inj {a b : ℕ} (ha : a < 10) (hb : b < 10) (h : decChar a = decChar b) :
    a = b := by
  interval_cases a <;> interval_cases b <;> revert h <;> decide

lemma map_decChar_inj : ∀ xs ys : List ℕ, (∀ d ∈ xs, d < 10) → (∀ d ∈ ys, d < 10) →
    xs.map decChar = ys.map decChar → xs = ys := by
  intro xs
  induction xs with
  | nil => intro ys _ _ h; cases ys with
    | nil => rfl
    | cons y ys => simp at h
  | cons x xs ih =>
    intro ys hx hy h
    cases ys with
    | nil => simp at h
    | cons y ys =>
      simp only [List.map_cons, List.cons.injEq] at h
      have hxy : x = y :=
        decChar_inj (hx x (by simp)) (hy y (by simp)) h.1
      have := ih ys (fun d hd => hx d (by simp [hd])) (fun d hd => hy d (by simp [hd])) h.2
      rw [hxy, this]

lemma natToChars_injective : Function.Injective natToChars := by
  intro m n h
  unfold natToChars at h
  by_cases hm : m = 0 <;> by_cases hn : n = 0
  · omega
  · rw [if_pos hm, if_neg hn] at h
    have h' : (decDigitsRev n n).map decChar = ['0'] := by
      have := congrArg List.reverse h
      simpa using this.symm
    have hds : decDigitsRev n n = [0] := by
      apply map_decChar_inj _ _ (fun d hd => decDigitsRev_lt_ten _ _ _ hd) (by norm_num)
      simpa [decChar] using h'
    have := decDigitsRev_val n n le_rfl
    rw [hds] at this
    simp [decVal] at this
    omega
  · rw [if_neg hm, if_pos hn] at h
    have h' : (decDigitsRev m m).map decChar = ['0'] := by
      have := congrArg List.reverse h
      simpa using this
    have hds : decDigitsRev m m = [0] := by
      apply map_decChar_inj _ _ (fun d hd => decDigitsRev_lt_ten _ _ _ hd) (by norm_num)
      simpa [decChar] using h'
    have := decDigitsRev_val m m le_rfl
    rw [hds] at this
    simp [decVal] at this
    omega
  · rw [if_neg hm, if_neg hn] at h
    have h' := congrArg List.reverse h
    simp only [List.reverse_reverse] at h'
    have hds := map_decChar_inj _ _ (fun d hd => decDigitsRev_lt_ten _ _ _ hd)
      (fun d hd => decDigitsRev_lt_ten _ _ _ hd) h'
    have hm' := decDigitsRev_val m m le_rfl
    have hn' := decDigitsRev_val n n le_rfl
    rw [hds] at hm'
    omega

lemma natToChars_ne_nil (n : ℕ) : natToChars n ≠ [] := by
  unfold natToChars
  split_ifs with h0
  · simp
  · intro h
    have h' : (decDigitsRev n n).map decChar = [] := by simpa using congrArg List.reverse h
    have : decVal (decDigitsRev n n) = n := decDigitsRev_val n n le_rfl
    rcases List.map_eq_nil_iff.1 h' with h''
    rw [h''] at this
    simp [decVal] at this
    omega

/-! ### The course store (`courses.json` CRUD) -/

/-- A course record: `{"id": ..., "name": ...}`. -/
structure Course where
  id : PyStr
  name : PyStr
deriving DecidableEq

/-- `create_course` from `app.py`: derives the new id as
`"course_" + str(len(existing_ids) + 1)` and appends the new record to the
stored list (the directory/meta side effects do not affect the list). -/
def create_course (courses : List Course) (course_name : PyStr) : List Course :=
  let existing_ids := courses.map Course.id
  let new_index := existing_ids.length + 1
  let new_id := pys "course_" ++ natToChars new_index
  courses ++ [{ id := new_id, name := course_name }]

/-- `get_course_by_name` from `app.py`: first course with the given name. -/
def get_course_by_name (courses : List Course) (course_name : PyStr) : Option Course :=
  courses.find? (fun c => c.name == course_name)

/-- `delete_course` from `app.py`: keep every course whose id differs. -/
def delete_course (courses : List Course) (course_id : PyStr) : List Course :=
  courses.filter (fun c => c.id != course_id)

/-- The "Add Course" button handler: strip the input; reject an empty name;
reject a name already present (via `get_course_by_name`); otherwise call
`create_course`. -/
def add_course_click (courses : List Course) (raw_name : PyStr) : List Course :=
  let name := pyStrip raw_name
  if name = [] then courses
  else
    match get_course_by_name courses name with
    | some _ => courses
    | none => create_course courses name

/-- Claim C2 fails on the code: after `create "A"; create "B";
delete "course_1"; create "C"` the stored list contains the id
`course_2` twice, because `create_course` derives ids from the current
list length, which shrinks after a deletion.  This contradicts
`create_course`'s own docstring ("Create a new course with a unique id")
and the documented store invariant. -/
theorem create_after_delete_duplicates_id :
    ((create_course (delete_course (create_course (create_course [] (pys "A")) (pys "B"))
        (pys "course_1")) (pys "C")).map Course.id) = [pys "course_2", pys "course_2"] ∧
    ¬ ((create_course (delete_course (create_course (create_course [] (pys "A")) (pys "B"))
        (pys "course_1")) (pys "C")).map Course.id).Nodup := by
  constructor
  · decide
  · decide

/-- Claim C8 fails as stated: the store layer itself does not reject a
duplicate name — `create_course` called with an existing course's name
changes the stored list and adds a second entry with that name. -/
theorem store_layer_create_allows_duplicate_name :
    (create_course [{ id := pys "course_1", name := pys "A" }] (pys "A")).map Course.name
      = [pys "A", pys "A"] ∧
    create_course [{ id := pys "course_1", name := pys "A" }] (pys "A")
      ≠ [{ id := pys "course_1", name := pys "A" }] := by
  constructor
  · decide
  · decide

/-- Claim C8 (amended): duplicate course names are rejected by the "Add
Course" UI handler, which looks the (stripped) name up with
`get_course_by_name` and skips `create_course` when it is found, leaving
the stored course list unchanged; `create_course` itself performs no name
check. -/
theorem add_course_click_rejects_duplicate_name
    (courses : List Course) (raw_name : PyStr) (c : Course)
    (h : get_course_by_name courses (pyStrip raw_name) = some c) :
    add_course_click courses raw_name = courses := by
  simp only [add_course_click]
  split_ifs with h0
  · rfl
  · rw [h]

/-- Witness for Claim C8 (amended) at a concrete store. -/
theorem add_course_click_witness :
    get_course_by_name [{ id := pys "course_1", name := pys "A" }] (pyStrip (pys "A"))
      = some (Course.mk (pys "course_1") (pys "A")) ∧
    add_course_click [{ id := pys "course_1", name := pys "A" }] (pys "A")
      = [{ id := pys "course_1", name := pys "A" }] :=
  ⟨by decide,
    add_course_click_rejects_duplicate_name [Course.mk (pys "course_1") (pys "A")]
      (pys "A") (Course.mk (pys "course_1") (pys "A")) (by decide)⟩

/-! ### Unique stored file names (`make_unique_filename`) -/

/-- `pathlib`'s stem/suffix split of a file name: the suffix starts at the
last dot, provided that dot is neither the leading character nor the last
character of the name. -/
def pathStemExt (name : PyStr) : PyStr × PyStr :=
  match lastIdxOf '.' name with
  | some i => if 0 < i ∧ i < name.length - 1 then (name.take i, name.drop i) else (name, [])
  | none => (name, [])

/-- The `while` loop of `make_unique_filename`; the fuel dominates one more
than the folder size and is always sufficient at the initial call. -/
def uniqueNameGo (folder : List PyStr) (base ext : PyStr) : PyStr → ℕ → ℕ → PyStr
  | candidate, _, 0 => candidate
  | candidate, counter, fuel + 1 =>
    if candidate ∈ folder then
      uniqueNameGo folder base ext (base ++ '_' :: (natToChars counter ++ ext)) (counter + 1) fuel
    else candidate

/-- `make_unique_filename(folder, original_name)` from `app.py`: try
`original_name`, then `base_1.ext`, `base_2.ext`, … until a name not
present in the folder is found. -/
def make_unique_filename (folder : List PyStr) (original_name : PyStr) : PyStr :=
  let base := (pathStemExt original_name).1
  let ext := (pathStemExt original_name).2
  uniqueNameGo folder base ext original_name 1 (folder.length + 1)

/-- A per-course file record as built by the upload handler. -/
structure FileRecord where
  original_name : PyStr
  stored_name : PyStr
deriving DecidableEq

/-- The upload handler's record construction: the stored name is
disambiguated, the original name is kept verbatim. -/
def upload_file_record (folder : List PyStr) (uploaded_name : PyStr) : FileRecord :=
  { original_name := uploaded_name,
    stored_name := make_unique_filename folder uploaded_name }

/-- The sequence of candidate names tried by `make_unique_filename`. -/
def candidateName (base ext : PyStr) : ℕ → PyStr
  | 0 => base ++ ext
  | k + 1 => base ++ '_' :: (natToChars (k + 1) ++ ext)

lemma pathStemExt_append (name : PyStr) :
    (pathStemExt name).1 ++ (pathStemExt name).2 = name := by
  unfold pathStemExt
  rcases h : lastIdxOf '.' name with _ | i
  · simp
  · dsimp only
    split_ifs with hi
    · exact List.take_append_drop i name
    · simp

lemma candidateName_injective (base ext : PyStr) :
    Function.Injective (candidateName base ext) := by
  intro i j h
  match i, j with
  | 0, 0 => rfl
  | 0, j + 1 =>
    exfalso
    have := congrArg List.length h
    simp [candidateName, List.length_append] at this
    omega
  | i + 1, 0 =>
    exfalso
    have := congrArg List.length h
    simp [candidateName, List.length_append] at this
    omega
  | i + 1, j + 1 =>
    simp only [candidateName] at h
    have h1 := List.append_cancel_left h
    simp only [List.cons.injEq, true_and] at h1
    have h2 := List.append_cancel_right h1
    have := natToChars_injective h2
    omega

lemma uniqueNameGo_spec (folder : List PyStr) (base ext : PyStr) :
    ∀ fuel k,
      (∃ j, k ≤ j ∧ j < k + fuel ∧ candidateName base ext j ∉ folder) →
      uniqueNameGo folder base ext (candidateName base ext k) (k + 1) fuel ∉ folder ∧
      ∃ i, k ≤ i ∧
        uniqueNameGo folder base ext (candidateName base ext k) (k + 1) fuel
          = candidateName base ext i ∧
        ∀ m, k ≤ m → m < i → candidateName base ext m ∈ folder := by
  intro fuel
  induction fuel with
  | zero =>
    intro k ⟨j, hj1, hj2, _⟩
    omega
  | succ fuel ih =>
    intro k ⟨j, hj1, hj2, hj3⟩
    rw [uniqueNameGo]
    by_cases hc : candidateName base ext k ∈ folder
    · rw [if_pos hc]
      have hjk : j ≠ k := by
        intro hx
        exact hj3 (hx ▸ hc)
      have hrec := ih (k + 1) ⟨j, by omega, by omega, hj3⟩
      have hcand : candidateName base ext (k + 1)
          = base ++ '_' :: (natToChars (k + 1) ++ ext) := rfl
      rw [hcand] at hrec
      obtain ⟨h1, i, hi1, hi2, hi3⟩ := hrec
      refine ⟨h1, i, by omega, hi2, fun m hm1 hm2 => ?_⟩
      by_cases hmk : m = k
      · exact hmk ▸ hc
      · exact hi3 m (by omega) hm2
    · rw [if_neg hc]
      exact ⟨hc, k, le_rfl, rfl, fun m hm1 hm2 => by omega⟩

lemma exists_free_candidate (folder : List PyStr) (base ext : PyStr) :
    ∃ j, j < folder.length + 1 ∧ candidateName base ext j ∉ folder := by
  by_contra hcon
  push_neg at hcon
  have hsub : (Finset.range (folder.length + 1)).image (candidateName base ext)
      ⊆ folder.toFinset := by
    intro x hx
    rw [Finset.mem_image] at hx
    obtain ⟨j, hj, rfl⟩ := hx
    exact List.mem_toFinset.2 (hcon j (Finset.mem_range.1 hj))
  have hcard := Finset.card_le_card hsub
  rw [Finset.card_image_of_injective _ (candidateName_injective base ext),
    Finset.card_range] at hcard
  have := List.toFinset_card_le folder
  omega

/-- Claim C9: for every folder and original name, `make_unique_filename`
terminates with a name not present in the folder; it returns the original
name when that name is free, and otherwise `base_i.ext` for the smallest
free counter `i` (every smaller counter collides); the upload handler's
file record keeps the original name verbatim. -/
theorem make_unique_filename_spec (folder : List PyStr) (original_name : PyStr) :
    make_unique_filename folder original_name ∉ folder ∧
    (original_name ∉ folder → make_unique_filename folder original_name = original_name) ∧
    (original_name ∈ folder →
      ∃ i, 1 ≤ i ∧
        make_unique_filename folder original_name =
          (pathStemExt original_name).1 ++ '_' ::
            (natToChars i ++ (pathStemExt original_name).2) ∧
        ∀ m, 1 ≤ m → m < i →
          (pathStemExt original_name).1 ++ '_' ::
            (natToChars m ++ (pathStemExt original_name).2) ∈ folder) ∧
    (upload_file_record folder original_name).original_name = original_name := by
  have h0 : candidateName (pathStemExt original_name).1 (pathStemExt original_name).2 0
      = original_name := pathStemExt_append original_name
  have hmk : make_unique_filename folder original_name
      = uniqueNameGo folder (pathStemExt original_name).1 (pathStemExt original_name).2
          (candidateName (pathStemExt original_name).1 (pathStemExt original_name).2 0)
          (0 + 1) (folder.length + 1) := by
    rw [h0]
    rfl
  obtain ⟨j, hj1, hj2⟩ :=
    exists_free_candidate folder (pathStemExt original_name).1 (pathStemExt original_name).2
  obtain ⟨hnotin, i, _, heq, hmin⟩ :=
    uniqueNameGo_spec folder (pathStemExt original_name).1 (pathStemExt original_name).2
      (folder.length + 1) 0 ⟨j, Nat.zero_le j, by omega, hj2⟩
  rw [← hmk] at hnotin heq
  refine ⟨hnotin, ?_, ?_, rfl⟩
  · intro horig
    rcases Nat.eq_zero_or_pos i with hi0 | hipos
    · rw [heq, hi0, h0]
    · have hc0 := hmin 0 le_rfl hipos
      rw [h0] at hc0
      exact absurd hc0 horig
  · intro horig
    have hipos : 1 ≤ i := by
      rcases Nat.eq_zero_or_pos i with hi0 | hipos
      · rw [hi0, h0] at heq
        rw [heq] at hnotin
        exact absurd horig hnotin
      · exact hipos
    refine ⟨i, hipos, ?_, fun m hm1 hm2 => ?_⟩
    · rw [heq]
      obtain ⟨i', rfl⟩ : ∃ i', i = i' + 1 := ⟨i - 1, by omega⟩
      rfl
    · have hmem := hmin m (Nat.zero_le m) hm2
      obtain ⟨m', rfl⟩ : ∃ m', m = m' + 1 := ⟨m - 1, by omega⟩
      exact hmem

/-- Witness for Claim C9: in a folder already holding `a.txt` and
`a_1.txt`, uploading `a.txt` stores it as `a_2.txt` while the record keeps
the original name. -/
theorem make_unique_filename_witness :
    make_unique_filename [pys "a.txt", pys "a_1.txt"] (pys "a.txt")
        ∉ ([pys "a.txt", pys "a_1.txt"] : List PyStr) ∧
    make_unique_filename [pys "a.txt", pys "a_1.txt"] (pys "a.txt") = pys "a_2.txt" ∧
    (upload_file_record [pys "a.txt", pys "a_1.txt"] (pys "a.txt")).original_name
      = pys "a.txt" :=
  ⟨(make_unique_filename_spec [pys "a.txt", pys "a_1.txt"] (pys "a.txt")).1,
    by decide,
    (make_unique_filename_spec [pys "a.txt", pys "a_1.txt"] (pys "a.txt")).2.2.2⟩

/-! ### JSON values and the LLM generation adapters

`json.loads` and the remote model call are external; the adapters'
post-processing of the model's response text is the repository's own code.
`parse` abstracts `json.loads` (whose only failure mode is a decode
error); JSON-decoded Python values are modelled by `Json`, and the runtime
errors the cleaning code can raise are modelled by `PyErr`. -/

/-- A value produced by `json.loads`. -/
inductive Json where
  | null
  | bool (b : Bool)
  | num (q : ℚ)
  | str (s : PyStr)
  | arr (elems : List Json)
  | obj (fields : List (PyStr × Json))

/-- Python exceptions relevant to the adapters' post-processing. -/
inductive PyErr where
  | jsonDecode
  | attributeError
  | typeError
deriving DecidableEq

instance instDecEqExcept {ε α : Type} [DecidableEq ε] [DecidableEq α] :
    DecidableEq (Except ε α) := fun x y =>
  match x, y with
  | .ok a, .ok b => if h : a = b then isTrue (by rw [h]) else isFalse (by simp [h])
  | .error a, .error b => if h : a = b then isTrue (by rw [h]) else isFalse (by simp [h])
  | .ok _, .error _ => isFalse (by simp)
  | .error _, .ok _ => isFalse (by simp)

/-- Python truthiness of a JSON-decoded value. -/
def jsonTruthy : Json → Bool
  | .null => false
  | .bool b => b
  | .num q => decide (q ≠ 0)
  | .str s => !s.isEmpty
  | .arr xs => !xs.isEmpty
  | .obj kvs => !kvs.isEmpty

/-- Python `a or b`. -/
def jsonOr (a b : Json) : Json := if jsonTruthy a then a else b

/-- Python `d.get(key)`: the value, or `None` when the key is missing. -/
def objGet (fields : List (PyStr × Json)) (key : PyStr) : Json :=
  match fields.find? (fun kv => kv.1 == key) with
  | some kv => kv.2
  | none => .null

/-- Python `.strip()` on a JSON-decoded value: defined on strings, raises
`AttributeError` otherwise. -/
def stripOfJson : Json → Except PyErr PyStr
  | .str s => .ok (pyStrip s)
  | _ => .error .attributeError

/-- Python `for x in v`: iterates list elements, dict keys, or the
characters of a string (as one-character strings); other values raise
`TypeError`. -/
def iterElems : Json → Except PyErr (List Json)
  | .arr xs => .ok xs
  | .obj kvs => .ok (kvs.map (fun kv => Json.str kv.1))
  | .str s => .ok (s.map (fun ch => Json.str [ch]))
  | _ => .error .typeError

/-- Python `str(o)` for a JSON-decoded value.  Strings render as
themselves, which is the only case the adapters' validation depends on;
booleans, `None` and integers render exactly; the renderings of containers
and non-integer numbers are abbreviated (they are non-empty non-blank
text, which is all the code observes about them). -/
def pyStrOf : Json → PyStr
  | .str s => s
  | .bool true => pys "True"
  | .bool false => pys "False"
  | .null => pys "None"
  | .num q =>
    if q.den = 1 then
      (if q.num < 0 then '-' :: natToChars q.num.natAbs else natToChars q.num.natAbs)
    else pys "float"
  | .arr _ => pys "[...]"
  | .obj _ => pys "\x7b...\x7d"

/-- Python `content.find(ch)`: first index, or `-1`. -/
def pyFind (ch : Char) (l : PyStr) : Int :=
  match firstIdxAux (· == ch) l with
  | some i => (i : ℤ)
  | none => -1

/-- Python `content.rfind(ch)`: last index, or `-1`. -/
def pyRFind (ch : Char) (l : PyStr) : Int :=
  match lastIdxOf ch l with
  | some i => (i : ℤ)
  | none => -1

/-- The shared JSON-recovery code of `generate_flashcards_from_text` and
`generate_quiz_from_text`: parse the response directly; on a decode error,
re-parse the slice `content[start : end + 1]` between the first `[` and
the last `]` when such a well-ordered pair exists, and otherwise re-raise
the original error. -/
def recoverJsonArray (parse : PyStr → Except PyErr Json) (content : PyStr) :
    Except PyErr Json :=
  match parse content with
  | .ok v => .ok v
  | .error e =>
    let s := pyFind '[' content
    let t := pyRFind ']' content
    if s ≠ -1 ∧ t ≠ -1 ∧ s < t then
      parse ((content.drop s.toNat).take (t.toNat + 1 - s.toNat))
    else .error e

/-- A flashcard: `{"front": ..., "back": ...}`. -/
structure Flashcard where
  front : PyStr
  back : PyStr
deriving DecidableEq

/-- The cleaning loop of `generate_flashcards_from_text`: non-dict items
are skipped; `front`/`term` and `back`/`definition` are read with `or`
fallbacks and stripped (raising `AttributeError` on a truthy non-string
value); items with a blank front or back are dropped. -/
def cleanCardsList : List Json → Except PyErr (List Flashcard)
  | [] => .ok []
  | c :: rest =>
    match c with
    | .obj kvs => do
      let front ← stripOfJson (jsonOr (objGet kvs (pys "front"))
        (jsonOr (objGet kvs (pys "term")) (.str [])))
      let back ← stripOfJson (jsonOr (objGet kvs (pys "back"))
        (jsonOr (objGet kvs (pys "definition")) (.str [])))
      let tail ← cleanCardsList rest
      if front ≠ [] ∧ back ≠ [] then
        pure ({ front := front, back := back } :: tail)
      else
        pure tail
    | _ => cleanCardsList rest

/-- The pure tail of `generate_flashcards_from_text`: from the model's
response `content`, parse (with array-slice recovery), iterate the result,
and clean the items. -/
def generate_flashcards_from_text (parse : PyStr → Except PyErr Json) (content : PyStr) :
    Except PyErr (List Flashcard) := do
  let cards ← recoverJsonArray parse content
  let items ← iterElems cards
  cleanCardsList items

/-- A quiz question as assembled by `generate_quiz_from_text`. -/
structure QuizQuestion where
  type : PyStr
  question : PyStr
  options : List PyStr
  correct_answer : PyStr
  difficulty : PyStr
  explanation : PyStr
deriving DecidableEq

/-- The options/correct-answer validation of one quiz item: for `mcq`,
`options` must be a list with at least two entries whose stripped
renderings leave at least two non-blank strings (capped at four), and the
stripped correct answer must match an option directly or
case-insensitively (normalised to the option's spelling); for
`true_false`, the options are exactly `["True", "False"]` and the correct
answer must be one of them.  Returns `none` to drop the item. -/
def resolveOptions (kvs : List (PyStr × Json)) (isMcq : Bool) :
    Except PyErr (Option (List PyStr × PyStr)) :=
  if isMcq then
    match objGet kvs (pys "options") with
    | .arr opts0 =>
      if opts0.length < 2 then pure none
      else
        let opts1 := (opts0.map (fun o => pyStrip (pyStrOf o))).filter (fun s => s ≠ [])
        if opts1.length < 2 then pure none
        else do
          let options := opts1.take 4
          let correct ← stripOfJson (jsonOr (objGet kvs (pys "correct_answer")) (.str []))
          if correct ∈ options then pure (some (options, correct))
          else
            match firstIdxAux (fun o => pyLower o == pyLower correct) options with
            | some idx => pure (some (options, options.getD idx []))
            | none => pure none
    | _ => pure none
  else do
    let correct ← stripOfJson (jsonOr (objGet kvs (pys "correct_answer")) (.str []))
    if correct = pys "True" ∨ correct = pys "False" then
      pure (some ([pys "True", pys "False"], correct))
    else pure none

/-- Validation of one quiz item (a dict): returns `none` to drop the item,
`some` to keep the assembled question, and propagates the exceptions the
Python code would raise.  Mirrors the body of the cleaning loop of
`generate_quiz_from_text`. -/
def cleanQuizItem (kvs : List (PyStr × Json)) : Except PyErr (Option QuizQuestion) := do
  let t0 ← stripOfJson (jsonOr (objGet kvs (pys "type")) (.str []))
  let qtype0 := pyLower t0
  let isMcq := qtype0 == pys "mcq" || qtype0 == pys "multiple_choice" ||
    qtype0 == pys "multiple-choice"
  let isTf := qtype0 == pys "true_false" || qtype0 == pys "true-false" || qtype0 == pys "tf"
  if !isMcq && !isTf then pure none
  else do
    let q_type := if isMcq then pys "mcq" else pys "true_false"
    let question ← stripOfJson (jsonOr (objGet kvs (pys "question")) (.str []))
    if question = [] then pure none
    else do
      let resolved ← resolveOptions kvs isMcq
      match resolved with
      | none => pure none
      | some oc => do
        let d0 ← stripOfJson (jsonOr (objGet kvs (pys "difficulty")) (.str []))
        let d1 := pyLower d0
        let difficulty :=
          if d1 = pys "easy" ∨ d1 = pys "medium" ∨ d1 = pys "hard" then d1 else pys "medium"
        let explanation ← stripOfJson (jsonOr (objGet kvs (pys "explanation")) (.str []))
        pure (some (QuizQuestion.mk q_type question oc.1 oc.2 difficulty explanation))

/-- The cleaning loop of `generate_quiz_from_text`: non-dict items are
skipped, valid items are appended in order, invalid items are dropped,
and exceptions propagate. -/
def cleanQuizList : List Json → Except PyErr (List QuizQuestion)
  | [] => .ok []
  | q :: rest =>
    match q with
    | .obj kvs => do
      let item ← cleanQuizItem kvs
      let tail ← cleanQuizList rest
      match item with
      | some qq => pure (qq :: tail)
      | none => pure tail
    | _ => cleanQuizList rest

/-- The pure tail of `generate_quiz_from_text`: from the model's response
`content`, parse (with array-slice recovery), iterate the result, and
clean the items. -/
def generate_quiz_from_text (parse : PyStr → Except PyErr Json) (content : PyStr) :
    Except PyErr (List QuizQuestion) := do
  let questions ← recoverJsonArray parse content
  let items ← iterElems questions
  cleanQuizList items

/-! ### Claim C6: JSON recovery control flow -/

lemma firstIdxAux_spec {α : Type} (p : α → Bool) :
    ∀ (l : List α) (i : ℕ), firstIdxAux p l = some i →
      i < l.length ∧ (∃ c, l[i]? = some c ∧ p c = true) ∧
      ∀ k, k < i → ∀ c, l[k]? = some c → p c = false := by
  intro l
  induction l with
  | nil => intro i h; simp [firstIdxAux] at h
  | cons c cs ih =>
    intro i h
    rw [firstIdxAux] at h
    split_ifs at h with hp
    · obtain rfl : (0 : ℕ) = i := by simpa using h
      exact ⟨by simp, ⟨c, by simp, hp⟩, fun k hk => by omega⟩
    · rcases hm : firstIdxAux p cs with _ | j
      · rw [hm] at h; simp at h
      · rw [hm] at h
        simp at h
        obtain ⟨h1, ⟨c', hc', hpc'⟩, h3⟩ := ih j hm
        subst h
        refine ⟨by simpa using h1, ⟨c', by simpa using hc', hpc'⟩, ?_⟩
        intro k hk c'' hc''
        cases k with
        | zero =>
          simp at hc''
          subst hc''
          simpa using hp
        | succ k' => exact h3 k' (by omega) c'' (by simpa using hc'')

lemma firstIdxAux_of_mem {α : Type} (p : α → Bool) :
    ∀ l : List α, (∃ c ∈ l, p c = true) → ∃ i, firstIdxAux p l = some i := by
  intro l
  induction l with
  | nil => rintro ⟨c, hc, _⟩; simp at hc
  | cons c cs ih =>
    rintro ⟨c', hc', hp⟩
    rw [firstIdxAux]
    split_ifs with hpc
    · exact ⟨0, rfl⟩
    · rcases List.mem_cons.1 hc' with rfl | hmem
      · exact absurd hp hpc
      · obtain ⟨i, hi⟩ := ih ⟨c', hmem, hp⟩
        exact ⟨i + 1, by rw [hi]; rfl⟩

lemma lastIdxOf_spec (ch : Char) (l : List Char) (i : ℕ) (h : lastIdxOf ch l = some i) :
    i < l.length ∧ l[i]? = some ch ∧ ∀ k, i < k → l[k]? ≠ some ch := by
  unfold lastIdxOf at h
  rcases hm : firstIdxAux (· == ch) l.reverse with _ | j
  · rw [hm] at h; simp at h
  · rw [hm] at h
    simp only [Option.some.injEq] at h
    obtain ⟨hj, ⟨c', hc', hpc⟩, hmin⟩ := firstIdxAux_spec _ _ _ hm
    rw [List.length_reverse] at hj
    have hrev : ∀ k, k < l.length → l.reverse[k]? = l[l.length - 1 - k]? := by
      intro k hk
      rw [List.getElem?_reverse hk]
    have hceq : c' = ch := by
      have := beq_iff_eq.1 hpc
      exact this
    subst h
    have hlpos : 0 < l.length := by omega
    refine ⟨by omega, ?_, ?_⟩
    · rw [← hrev j hj, hc', hceq]
    · intro k hk hkc
      by_cases hklen : k < l.length
      · have hj' : l.length - 1 - k < j := by omega
        have := hmin (l.length - 1 - k) hj' ch
        rw [hrev (l.length - 1 - k) (by omega)] at this
        have hkk : l.length - 1 - (l.length - 1 - k) = k := by omega
        rw [hkk] at this
        have := this hkc
        simp at this
      · rw [List.getElem?_eq_none (by omega)] at hkc
        exact absurd hkc (by simp)

lemma lastIdxOf_of_mem (ch : Char) (l : List Char) (h : ch ∈ l) :
    ∃ i, lastIdxOf ch l = some i := by
  obtain ⟨j, hj⟩ := firstIdxAux_of_mem (· == ch) l.reverse
    ⟨ch, List.mem_reverse.2 h, by simp⟩
  exact ⟨l.length - 1 - j, by unfold lastIdxOf; rw [hj]⟩

lemma pyFind_eq_of {ch : Char} {content : PyStr} {i0 : ℕ}
    (hf : firstIdxAux (· == ch) content = some i0) : pyFind ch content = (i0 : ℤ) := by
  unfold pyFind
  rw [hf]

lemma pyRFind_eq_of {ch : Char} {content : PyStr} {j0 : ℕ}
    (hr : lastIdxOf ch content = some j0) : pyRFind ch content = (j0 : ℤ) := by
  unfold pyRFind
  rw [hr]

lemma recover_cond_iff (content : PyStr) :
    (pyFind '[' content ≠ -1 ∧ pyRFind ']' content ≠ -1 ∧
        pyFind '[' content < pyRFind ']' content) ↔
      ∃ i j : ℕ, i < j ∧ content[i]? = some '[' ∧ content[j]? = some ']' := by
  constructor
  · rintro ⟨h1, h2, h3⟩
    rcases hf : firstIdxAux (· == '[') content with _ | i0
    · rw [pyFind] at h1
      rw [hf] at h1
      simp at h1
    · rcases hr : lastIdxOf ']' content with _ | j0
      · rw [pyRFind] at h2
        rw [hr] at h2
        simp at h2
      · rw [pyFind_eq_of hf, pyRFind_eq_of hr] at h3
        have hij : i0 < j0 := by exact_mod_cast h3
        obtain ⟨_, ⟨c, hc, hpc⟩, _⟩ := firstIdxAux_spec _ _ _ hf
        obtain ⟨_, hcj, _⟩ := lastIdxOf_spec _ _ _ hr
        refine ⟨i0, j0, hij, ?_, hcj⟩
        rw [hc, beq_iff_eq.1 hpc]
  · rintro ⟨i, j, hij, hi, hj⟩
    have hmem1 : '[' ∈ content := List.getElem?_mem hi
    have hmem2 : ']' ∈ content := List.getElem?_mem hj
    obtain ⟨i0, hf⟩ := firstIdxAux_of_mem (· == '[') content ⟨'[', hmem1, by simp⟩
    obtain ⟨j0, hr⟩ := lastIdxOf_of_mem ']' content hmem2
    obtain ⟨hi0len, _, hmin⟩ := firstIdxAux_spec _ _ _ hf
    obtain ⟨hj0len, _, hmax⟩ := lastIdxOf_spec _ _ _ hr
    have hi0 : i0 ≤ i := by
      by_contra hlt
      push_neg at hlt
      have := hmin i hlt '[' hi
      simp at this
    have hj0 : j ≤ j0 := by
      by_contra hlt
      push_neg at hlt
      exact (hmax j hlt) hj
    rw [pyFind_eq_of hf, pyRFind_eq_of hr]
    refine ⟨by omega, by omega, ?_⟩
    have hlt : i0 < j0 := by omega
    exact_mod_cast hlt

/-- The slice `content[start : end + 1]` between the first `[` and the
last `]` that the recovery re-parses. -/
def recoverSlice (content : PyStr) : PyStr :=
  (content.drop (pyFind '[' content).toNat).take
    ((pyRFind ']' content).toNat + 1 - (pyFind '[' content).toNat)

/-- Claim C6: in both `generate_flashcards_from_text` and
`generate_quiz_from_text`, when the model's response is not directly
parseable, the adapter re-parses the slice of the response between the
first `[` and the last `]` whenever such a well-ordered pair of brackets
exists, and otherwise the original JSON-decoding error propagates to the
caller. -/
theorem json_recovery_spec (parse : PyStr → Except PyErr Json) (content : PyStr) (e : PyErr)
    (hp : parse content = .error e) :
    ((∃ i j : ℕ, i < j ∧ content[i]? = some '[' ∧ content[j]? = some ']') →
      recoverJsonArray parse content = parse (recoverSlice content) ∧
      generate_flashcards_from_text parse content =
        (do
          let v ← parse (recoverSlice content)
          let items ← iterElems v
          cleanCardsList items) ∧
      generate_quiz_from_text parse content =
        (do
          let v ← parse (recoverSlice content)
          let items ← iterElems v
          cleanQuizList items)) ∧
    ((¬ ∃ i j : ℕ, i < j ∧ content[i]? = some '[' ∧ content[j]? = some ']') →
      recoverJsonArray parse content = .error e ∧
      generate_flashcards_from_text parse content = .error e ∧
      generate_quiz_from_text parse content = .error e) := by
  constructor
  · intro hex
    have hc := (recover_cond_iff content).2 hex
    have hrec : recoverJsonArray parse content = parse (recoverSlice content) := by
      have hstep : recoverJsonArray parse content =
          (if pyFind '[' content ≠ -1 ∧ pyRFind ']' content ≠ -1 ∧
              pyFind '[' content < pyRFind ']' content then
            parse (recoverSlice content)
          else .error e) := by
        unfold recoverJsonArray
        rw [hp]
        rfl
      rw [hstep, if_pos hc]
    refine ⟨hrec, ?_, ?_⟩
    · unfold generate_flashcards_from_text
      rw [hrec]
    · unfold generate_quiz_from_text
      rw [hrec]
  · intro hnex
    have hc : ¬ (pyFind '[' content ≠ -1 ∧ pyRFind ']' content ≠ -1 ∧
        pyFind '[' content < pyRFind ']' content) :=
      fun h => hnex ((recover_cond_iff content).1 h)
    have hrec : recoverJsonArray parse content = .error e := by
      have hstep : recoverJsonArray parse content =
          (if pyFind '[' content ≠ -1 ∧ pyRFind ']' content ≠ -1 ∧
              pyFind '[' content < pyRFind ']' content then
            parse (recoverSlice content)
          else .error e) := by
        unfold recoverJsonArray
        rw [hp]
        rfl
      rw [hstep, if_neg hc]
    refine ⟨hrec, ?_, ?_⟩
    · unfold generate_flashcards_from_text
      rw [hrec]
      rfl
    · unfold generate_quiz_from_text
      rw [hrec]
      rfl

/-- A stand-in for `json.loads` that accepts exactly the text `[]`. -/
def demoParse : PyStr → Except PyErr Json := fun s =>
  if s = pys "[]" then .ok (Json.arr []) else .error .jsonDecode

/-- Witness for Claim C6 at concrete inputs: `x[]y` recovers the slice
`[]` in both adapters, and `(1)` (no bracket pair) propagates the decode
error. -/
theorem json_recovery_witness :
    demoParse (pys "x[]y") = .error .jsonDecode ∧
    recoverSlice (pys "x[]y") = pys "[]" ∧
    recoverJsonArray demoParse (pys "x[]y") = demoParse (pys "[]") ∧
    generate_flashcards_from_text demoParse (pys "x[]y") = .ok [] ∧
    generate_quiz_from_text demoParse (pys "x[]y") = .ok [] ∧
    recoverJsonArray demoParse (pys "(1)") = .error .jsonDecode ∧
    generate_flashcards_from_text demoParse (pys "(1)") = .error .jsonDecode := by
  have hp1 : demoParse (pys "x[]y") = .error .jsonDecode := by
    unfold demoParse
    rw [if_neg (by decide)]
  have hp2 : demoParse (pys "(1)") = .error .jsonDecode := by
    unfold demoParse
    rw [if_neg (by decide)]
  have hslice : recoverSlice (pys "x[]y") = pys "[]" := by decide
  have hA := (json_recovery_spec demoParse (pys "x[]y") .jsonDecode hp1).1
    ⟨1, 2, by omega, by decide, by decide⟩
  have hB := (json_recovery_spec demoParse (pys "(1)") .jsonDecode hp2).2
    (by
      rintro ⟨i, j, hij, hi, hj⟩
      have hmem : '[' ∈ pys "(1)" := List.getElem?_mem hi
      exact absurd hmem (by decide))
  refine ⟨hp1, hslice, ?_, ?_, ?_, hB.1, hB.2.1⟩
  · rw [hA.1, hslice]
  · rw [hA.2.1, hslice]
    decide
  · rw [hA.2.2, hslice]
    decide

/-! ### Claim C10: returned flashcards are non-blank and stripped -/

lemma length_dropWhile_le (p : Char → Bool) (l : List Char) :
    (l.dropWhile p).length ≤ l.length := by
  induction l with
  | nil => simp
  | cons c cs ih =>
    rw [List.dropWhile_cons]
    split_ifs
    · simp only [List.length_cons]
      omega
    · simp

lemma dropWhile_idem (p : Char → Bool) (l : List Char) :
    (l.dropWhile p).dropWhile p = l.dropWhile p := by
  induction l with
  | nil => simp
  | cons c cs ih =>
    rw [List.dropWhile_cons]
    split_ifs with hp
    · exact ih
    · rw [List.dropWhile_cons, if_neg hp]

lemma pyRStrip_idem (l : PyStr) : pyRStrip (pyRStrip l) = pyRStrip l := by
  unfold pyRStrip
  rw [List.reverse_reverse, dropWhile_idem]

lemma rstrip_append (l : PyStr) :
    l = pyRStrip l ++ (l.reverse.takeWhile isPySpace).reverse := by
  unfold pyRStrip
  calc l = l.reverse.reverse := by rw [List.reverse_reverse]
    _ = (l.reverse.takeWhile isPySpace ++ l.reverse.dropWhile isPySpace).reverse := by
        rw [List.takeWhile_append_dropWhile]
    _ = (l.reverse.dropWhile isPySpace).reverse ++ (l.reverse.takeWhile isPySpace).reverse := by
        rw [List.reverse_append]

lemma dropWhile_eq_self_of_append (p : Char → Bool) :
    ∀ (a b : List Char), (a ++ b).dropWhile p = a ++ b → a.dropWhile p = a := by
  intro a
  induction a with
  | nil => intro b _; simp
  | cons c a' ih =>
    intro b h
    rw [List.cons_append, List.dropWhile_cons] at h
    split_ifs at h with hp
    · exfalso
      have hlen := length_dropWhile_le p (a' ++ b)
      rw [h] at hlen
      simp at hlen
    · rw [List.dropWhile_cons, if_neg hp]

lemma pyStrip_idem (l : PyStr) : pyStrip (pyStrip l) = pyStrip l := by
  unfold pyStrip
  have hy : pyLStrip (pyLStrip l) = pyLStrip l := dropWhile_idem _ _
  have hz : pyLStrip (pyRStrip (pyLStrip l)) = pyRStrip (pyLStrip l) := by
    apply dropWhile_eq_self_of_append isPySpace _
      (((pyLStrip l).reverse.takeWhile isPySpace).reverse)
    rw [← rstrip_append]
    exact hy
  rw [hz, pyRStrip_idem]

lemma stripOfJson_ok {j : Json} {s : PyStr} (h : stripOfJson j = .ok s) :
    ∃ t, j = .str t ∧ s = pyStrip t := by
  cases j with
  | str t =>
    refine ⟨t, rfl, ?_⟩
    simp only [stripOfJson, Except.ok.injEq] at h
    exact h.symm
  | null => simp [stripOfJson] at h
  | bool b => simp [stripOfJson] at h
  | num q => simp [stripOfJson] at h
  | arr xs => simp [stripOfJson] at h
  | obj kvs => simp [stripOfJson] at h

lemma except_bind_ok {ε α β : Type} {x : Except ε α} {f : α → Except ε β} {b : β}
    (h : x >>= f = .ok b) : ∃ a, x = .ok a ∧ f a = .ok b := by
  cases x with
  | ok a => exact ⟨a, rfl, by simpa [Bind.bind, Except.bind] using h⟩
  | error e => simp [Bind.bind, Except.bind] at h

lemma cleanCardsList_spec : ∀ (items : List Json) (cards : List Flashcard),
    cleanCardsList items = .ok cards →
    ∀ card ∈ cards, card.front ≠ [] ∧ card.back ≠ [] ∧
      pyStrip card.front = card.front ∧ pyStrip card.back = card.back := by
  intro items
  induction items with
  | nil =>
    intro cards h card hc
    simp only [cleanCardsList, Except.ok.injEq] at h
    subst h
    simp at hc
  | cons c rest ih =>
    intro cards h card hc
    cases c with
    | obj kvs =>
      simp only [cleanCardsList] at h
      obtain ⟨front, hf, h2⟩ := except_bind_ok h
      obtain ⟨back, hb, h3⟩ := except_bind_ok h2
      obtain ⟨tail, ht, h4⟩ := except_bind_ok h3
      obtain ⟨tf, htf, hsf⟩ := stripOfJson_ok hf
      obtain ⟨tb, htb, hsb⟩ := stripOfJson_ok hb
      split_ifs at h4 with hcond
      · have hc4 : ({ front := front, back := back } : Flashcard) :: tail = cards := by
          simpa [pure, Except.pure] using h4
        subst hc4
        rcases List.mem_cons.1 hc with rfl | hmem
        · exact ⟨hcond.1, hcond.2, by rw [hsf, pyStrip_idem], by rw [hsb, pyStrip_idem]⟩
        · exact ih tail ht card hmem
      · have hc4 : tail = cards := by simpa [pure, Except.pure] using h4
        subst hc4
        exact ih tail ht card hc
    | null =>
      simp only [cleanCardsList] at h
      exact ih cards h card hc
    | bool b =>
      simp only [cleanCardsList] at h
      exact ih cards h card hc
    | num q =>
      simp only [cleanCardsList] at h
      exact ih cards h card hc
    | str s =>
      simp only [cleanCardsList] at h
      exact ih cards h card hc
    | arr xs =>
      simp only [cleanCardsList] at h
      exact ih cards h card hc

/-- Claim C10: every flashcard in a successfully returned list has a
non-empty, whitespace-stripped front and back; non-object items and items
whose `front`/`term` or `back`/`definition` fields are missing or blank
are silently dropped by the cleaning loop. -/
theorem flashcards_nonempty_and_stripped (parse : PyStr → Except PyErr Json)
    (content : PyStr) (cards : List Flashcard)
    (h : generate_flashcards_from_text parse content = .ok cards) :
    ∀ card ∈ cards, card.front ≠ [] ∧ card.back ≠ [] ∧
      pyStrip card.front = card.front ∧ pyStrip card.back = card.back := by
  unfold generate_flashcards_from_text at h
  obtain ⟨v, hv, h2⟩ := except_bind_ok h
  obtain ⟨items, hi, h3⟩ := except_bind_ok h2
  exact cleanCardsList_spec items cards h3

/-- A stand-in for `json.loads` returning a fixed flashcard array with
messy items: a padded card, a non-object item, a blank-front card, and a
`term`/`definition` card. -/
def demoParseCards : PyStr → Except PyErr Json := fun _ =>
  .ok (Json.arr [
    Json.obj [(pys "front", Json.str (pys "  Term ")), (pys "back", Json.str (pys "Def"))],
    Json.num 7,
    Json.obj [(pys "front", Json.str (pys "   ")), (pys "back", Json.str (pys "x"))],
    Json.obj [(pys "term", Json.str (pys "T2")), (pys "definition", Json.str (pys "D2"))]])

/-- Witness for Claim C10 at a concrete response: the junk items are
dropped and both returned cards are non-blank and stripped. -/
theorem flashcards_nonempty_witness :
    generate_flashcards_from_text demoParseCards (pys "resp")
      = .ok [Flashcard.mk (pys "Term") (pys "Def"), Flashcard.mk (pys "T2") (pys "D2")] ∧
    ∀ card ∈ [Flashcard.mk (pys "Term") (pys "Def"), Flashcard.mk (pys "T2") (pys "D2")],
      card.front ≠ [] ∧ card.back ≠ [] ∧
      pyStrip card.front = card.front ∧ pyStrip card.back = card.back :=
  ⟨by decide, flashcards_nonempty_and_stripped demoParseCards (pys "resp") _ (by decide)⟩

/-! ### Claim C7: validation of returned quiz questions -/

/-- The well-formedness properties Claim C7 states for a returned quiz
question. -/
def ValidQuestion (q : QuizQuestion) : Prop :=
  (q.type = pys "mcq" ∨ q.type = pys "true_false") ∧
  2 ≤ q.options.length ∧ q.options.length ≤ 4 ∧
  (∀ o ∈ q.options, o ≠ []) ∧
  (q.type = pys "true_false" → q.options = [pys "True", pys "False"]) ∧
  q.correct_answer ∈ q.options ∧
  (q.difficulty = pys "easy" ∨ q.difficulty = pys "medium" ∨ q.difficulty = pys "hard")

lemma resolveOptions_ok_some (kvs : List (PyStr × Json)) (isMcq : Bool)
    (oc : List PyStr × PyStr) (h : resolveOptions kvs isMcq = .ok (some oc)) :
    2 ≤ oc.1.length ∧ oc.1.length ≤ 4 ∧ (∀ o ∈ oc.1, o ≠ []) ∧ oc.2 ∈ oc.1 ∧
    (isMcq = false → oc.1 = [pys "True", pys "False"]) := by
  unfold resolveOptions at h
  cases isMcq with
  | false =>
    rw [if_neg (by simp)] at h
    obtain ⟨c0, hc0, h2⟩ := except_bind_ok h
    split_ifs at h2 with hTF
    · have hpair : ([pys "True", pys "False"], c0) = oc := by
        simpa [pure, Except.pure] using h2
      subst hpair
      refine ⟨by simp, by simp, ?_, ?_, fun _ => rfl⟩
      · intro o ho
        rcases List.mem_cons.1 ho with rfl | ho'
        · decide
        · rcases List.mem_cons.1 ho' with rfl | ho''
          · decide
          · simp at ho''
      · rcases hTF with h | h <;> simp [h]
    · simp [pure, Except.pure] at h2
  | true =>
    rw [if_pos rfl] at h
    rcases hopts : objGet kvs (pys "options") with _ | b | q' | s | opts0 | kvs'
    all_goals rw [hopts] at h
    case arr =>
      have h' : (if opts0.length < 2 then (pure none : Except PyErr (Option (List PyStr × PyStr)))
          else
            let opts1 := (opts0.map (fun o => pyStrip (pyStrOf o))).filter (fun s => s ≠ [])
            if opts1.length < 2 then pure none
            else do
              let options := opts1.take 4
              let correct ← stripOfJson (jsonOr (objGet kvs (pys "correct_answer")) (.str []))
              if correct ∈ options then pure (some (options, correct))
              else
                match firstIdxAux (fun o => pyLower o == pyLower correct) options with
                | some idx => pure (some (options, options.getD idx []))
                | none => pure none) = .ok (some oc) := h
      clear h
      split_ifs at h' with hlen1
      · simp [pure, Except.pure] at h'
      set opts1 := (opts0.map (fun o => pyStrip (pyStrOf o))).filter (fun s => s ≠ [])
        with hopts1
      simp only [] at h'
      split_ifs at h' with hlen2
      · simp [pure, Except.pure] at h'
      obtain ⟨c0, hc0, h3⟩ := except_bind_ok h'
      case neg =>
        have hlen : 2 ≤ (opts1.take 4).length ∧ (opts1.take 4).length ≤ 4 := by
          rw [List.length_take]
          omega
        have hne : ∀ o ∈ opts1.take 4, o ≠ [] := by
          intro o ho
          have hmem := List.take_subset 4 opts1 ho
          rw [hopts1] at hmem
          have := (List.mem_filter.1 hmem).2
          simpa using this
        split_ifs at h3 with hin
        · have hpair : (opts1.take 4, c0) = oc := by
            simpa [pure, Except.pure] using h3
          subst hpair
          exact ⟨hlen.1, hlen.2, hne, hin, by simp⟩
        · rcases hidx : firstIdxAux (fun o => pyLower o == pyLower c0) (opts1.take 4)
            with _ | idx
          all_goals rw [hidx] at h3
          · simp [pure, Except.pure] at h3
          · obtain ⟨_, ⟨o', ho', _⟩, _⟩ := firstIdxAux_spec _ _ _ hidx
            have hpair : (opts1.take 4, (opts1.take 4).getD idx []) = oc := by
              simpa [pure, Except.pure] using h3
            subst hpair
            refine ⟨hlen.1, hlen.2, hne, ?_, by simp⟩
            have hgd : (opts1.take 4).getD idx [] = o' := by
              rw [List.getD_eq_getElem?_getD, ho']
              rfl
            rw [hgd]
            exact List.getElem?_mem ho'
    all_goals simp [pure, Except.pure] at h

lemma cleanQuizItem_ok_some (kvs : List (PyStr × Json)) (qq : QuizQuestion)
    (h : cleanQuizItem kvs = .ok (some qq)) : ValidQuestion qq := by
  unfold cleanQuizItem at h
  obtain ⟨t0, ht0, h2⟩ := except_bind_ok h
  simp only [] at h2
  split_ifs at h2 with htype hmcq
  · simp [pure, Except.pure] at h2
  · obtain ⟨question, hq, h3⟩ := except_bind_ok h2
    split_ifs at h3 with hqe
    · simp [pure, Except.pure] at h3
    · obtain ⟨resolved, hr, h4⟩ := except_bind_ok h3
      cases resolved with
      | none => simp [pure, Except.pure] at h4
      | some oc =>
        obtain ⟨d0, hd0, h5⟩ := except_bind_ok h4
        obtain ⟨expl, hex, h6⟩ := except_bind_ok h5
        obtain ⟨hl1, hl2, hne, hcm, htfOpts⟩ := resolveOptions_ok_some _ _ _ hr
        have hqq : QuizQuestion.mk (pys "mcq") question oc.1 oc.2
            (if pyLower d0 = pys "easy" ∨ pyLower d0 = pys "medium" ∨ pyLower d0 = pys "hard"
              then pyLower d0 else pys "medium") expl = qq := by
          simpa [pure, Except.pure] using h6
        subst hqq
        refine ⟨Or.inl rfl, hl1, hl2, hne, ?_, hcm, ?_⟩
        · intro htp
          have habs : pys "mcq" = pys "true_false" := htp
          exact absurd habs (by decide)
        · dsimp only
          split_ifs with hd
          · exact hd
          · exact Or.inr (Or.inl rfl)
  · obtain ⟨question, hq, h3⟩ := except_bind_ok h2
    split_ifs at h3 with hqe
    · simp [pure, Except.pure] at h3
    · obtain ⟨resolved, hr, h4⟩ := except_bind_ok h3
      cases resolved with
      | none => simp [pure, Except.pure] at h4
      | some oc =>
        obtain ⟨d0, hd0, h5⟩ := except_bind_ok h4
        obtain ⟨expl, hex, h6⟩ := except_bind_ok h5
        obtain ⟨hl1, hl2, hne, hcm, htfOpts⟩ := resolveOptions_ok_some _ _ _ hr
        have hqq : QuizQuestion.mk (pys "true_false") question oc.1 oc.2
            (if pyLower d0 = pys "easy" ∨ pyLower d0 = pys "medium" ∨ pyLower d0 = pys "hard"
              then pyLower d0 else pys "medium") expl = qq := by
          simpa [pure, Except.pure] using h6
        subst hqq
        refine ⟨Or.inr rfl, hl1, hl2, hne, ?_, hcm, ?_⟩
        · intro htp
          exact htfOpts (by simpa using hmcq)
        · dsimp only
          split_ifs with hd
          · exact hd
          · exact Or.inr (Or.inl rfl)

lemma cleanQuizList_spec : ∀ (items : List Json) (qs : List QuizQuestion),
    cleanQuizList items = .ok qs → ∀ q ∈ qs, ValidQuestion q := by
  intro items
  induction items with
  | nil =>
    intro qs h q hq
    simp only [cleanQuizList, Except.ok.injEq] at h
    subst h
    simp at hq
  | cons c rest ih =>
    intro qs h q hq
    cases c with
    | obj kvs =>
      simp only [cleanQuizList] at h
      obtain ⟨item, hitem, h2⟩ := except_bind_ok h
      obtain ⟨tail, htail, h3⟩ := except_bind_ok h2
      cases item with
      | some qq =>
        have hqs : qq :: tail = qs := by simpa [pure, Except.pure] using h3
        subst hqs
        rcases List.mem_cons.1 hq with rfl | hmem
        · exact cleanQuizItem_ok_some kvs q hitem
        · exact ih tail htail q hmem
      | none =>
        have hqs : tail = qs := by simpa [pure, Except.pure] using h3
        subst hqs
        exact ih tail htail q hq
    | null =>
      simp only [cleanQuizList] at h
      exact ih qs h q hq
    | bool b =>
      simp only [cleanQuizList] at h
      exact ih qs h q hq
    | num n =>
      simp only [cleanQuizList] at h
      exact ih qs h q hq
    | str s =>
      simp only [cleanQuizList] at h
      exact ih qs h q hq
    | arr xs =>
      simp only [cleanQuizList] at h
      exact ih qs h q hq

/-- Claim C7 (amended): every quiz question in a successfully returned
list satisfies the stated constraints — the type is `mcq` or `true_false`,
the options are 2–4 non-empty strings (exactly `["True", "False"]` for
`true_false`), the correct answer is one of the options (case-insensitive
matches having been normalised to the option's spelling for `mcq`), and
the difficulty is `easy`, `medium` or `hard` (defaulting to `medium`).
Constraint-violating items whose inspected fields are strings or missing
are dropped; an item with a truthy non-string field raises instead of
being dropped (see the counterexample). -/
theorem quiz_items_validated (parse : PyStr → Except PyErr Json) (content : PyStr)
    (qs : List QuizQuestion) (h : generate_quiz_from_text parse content = .ok qs) :
    ∀ q ∈ qs, ValidQuestion q := by
  unfold generate_quiz_from_text at h
  obtain ⟨v, hv, h2⟩ := except_bind_ok h
  obtain ⟨items, hi, h3⟩ := except_bind_ok h2
  exact cleanQuizList_spec items qs h3

/-- Claim C7 as stated is refuted here: an item violating the constraints
(its `type` is not a string naming a known question type) makes the
adapter raise `AttributeError` (Python calls `.strip()` on the truthy
non-string value) instead of silently dropping the item. -/
theorem quiz_nonstring_type_raises :
    cleanQuizList [Json.obj [(pys "type", Json.bool true)]]
      = .error .attributeError ∧
    generate_quiz_from_text
      (fun _ => .ok (Json.arr [Json.obj [(pys "type", Json.bool true)]])) (pys "resp")
      = .error .attributeError := by
  constructor
  · decide
  · decide

/-- A stand-in for `json.loads` returning a fixed quiz array with messy
items: an upper-case `MCQ` item with a padded/blank option and a
case-mismatched answer, a valid `tf` item, a non-object item, and an
unknown-type item. -/
def demoParseQuiz : PyStr → Except PyErr Json := fun _ =>
  .ok (Json.arr [
    Json.obj [(pys "type", Json.str (pys "MCQ")), (pys "question", Json.str (pys "Pick one")),
      (pys "options", Json.arr [Json.str (pys "Alpha"), Json.str (pys " Beta "),
        Json.str (pys "")]),
      (pys "correct_answer", Json.str (pys "beta")),
      (pys "difficulty", Json.str (pys "Weird"))],
    Json.obj [(pys "type", Json.str (pys "tf")),
      (pys "question", Json.str (pys "Sky is blue?")),
      (pys "correct_answer", Json.str (pys "True")),
      (pys "difficulty", Json.str (pys "hard")),
      (pys "explanation", Json.str (pys "It is."))],
    Json.num 3,
    Json.obj [(pys "type", Json.str (pys "essay"))]])

/-- Witness for Claim C7 (amended) at a concrete response: the two valid
items survive with normalised fields and both satisfy every constraint. -/
theorem quiz_items_validated_witness :
    generate_quiz_from_text demoParseQuiz (pys "resp") = .ok
      [QuizQuestion.mk (pys "mcq") (pys "Pick one") [pys "Alpha", pys "Beta"] (pys "Beta")
        (pys "medium") (pys ""),
       QuizQuestion.mk (pys "true_false") (pys "Sky is blue?") [pys "True", pys "False"]
        (pys "True") (pys "hard") (pys "It is.")] ∧
    ∀ q ∈ [QuizQuestion.mk (pys "mcq") (pys "Pick one") [pys "Alpha", pys "Beta"] (pys "Beta")
        (pys "medium") (pys ""),
       QuizQuestion.mk (pys "true_false") (pys "Sky is blue?") [pys "True", pys "False"]
        (pys "True") (pys "hard") (pys "It is.")], ValidQuestion q :=
  ⟨by decide, quiz_items_validated demoParseQuiz (pys "resp") _ (by decide)⟩

/-! ### Claims C3/C4: structure of the normalisation pass

`SubSeg x s` states that `x` occurs contiguously inside `s`: wrapped
output lines are contiguous segments of the whitespace-normalised input,
so wrapping never inserts characters (in particular it never hyphenates a
word). -/

/-- `x` is a contiguous segment of `s`. -/
def SubSeg (x s : List Char) : Prop := ∃ pre post, s = pre ++ x ++ post

lemma splitChunksAux_flatten : ∀ (fuel : ℕ) (l : List Char),
    (splitChunksAux fuel l).flatten = l := by
  intro fuel
  induction fuel with
  | zero =>
    intro l
    cases l with
    | nil => rfl
    | cons c cs => simp [splitChunksAux]
  | succ fuel ih =>
    intro l
    cases l with
    | nil => rfl
    | cons c cs =>
      rw [splitChunksAux]
      simp only [List.flatten_cons, ih]
      rw [List.cons_append, List.takeWhile_append_dropWhile]

lemma splitChunks_flatten (l : PyStr) : (splitChunks l).flatten = l :=
  splitChunksAux_flatten l.length l

lemma flatten_fillLine (w : ℕ) : ∀ (k : ℕ) (chunks : List PyStr),
    (fillLine w k chunks).1 ++ (fillLine w k chunks).2 = chunks := by
  intro k chunks
  induction chunks generalizing k with
  | nil => simp [fillLine]
  | cons ch rest ih =>
    rw [fillLine]
    split_ifs with hfit
    · dsimp only
      rw [List.cons_append, ih]
    · rfl

lemma handleLong_append (w k : ℕ) (chunk : PyStr) :
    (handleLong w k chunk).1 ++ (handleLong w k chunk).2 = chunk :=
  List.take_append_drop _ chunk

lemma oneLineBody_spec (w : ℕ) (c1 : List PyStr) :
    (∀ l, (oneLineBody w c1).1 = some l → SubSeg l c1.flatten) ∧
    ∃ pre, c1.flatten = pre ++ (oneLineBody w c1).2.flatten := by
  unfold oneLineBody
  rcases hfr : fillLine w 0 c1 with ⟨cur, rest⟩
  have hsplit : cur ++ rest = c1 := by
    have := flatten_fillLine w 0 c1
    rwa [hfr] at this
  dsimp only
  have hmain : ∀ (cur2 rest3 : List PyStr),
      cur2.flatten ++ rest3.flatten = c1.flatten →
      (∀ l : PyStr, (if (match cur2.getLast? with
            | some lastc => if isWsChunk lastc = true then cur2.dropLast else cur2
            | none => cur2) = [] then none
          else some (match cur2.getLast? with
            | some lastc => if isWsChunk lastc = true then cur2.dropLast else cur2
            | none => cur2 : List PyStr).flatten) = some l → SubSeg l c1.flatten) ∧
      ∃ pre, c1.flatten = pre ++ rest3.flatten := by
    intro cur2 rest3 hflat
    have hfull : SubSeg cur2.flatten c1.flatten :=
      ⟨[], rest3.flatten, by simp only [List.nil_append]; exact hflat.symm⟩
    have hdrop : SubSeg cur2.dropLast.flatten c1.flatten := by
      rcases hgl : cur2.getLast? with _ | lastc
      · rw [List.getLast?_eq_none_iff.1 hgl]
        exact ⟨[], c1.flatten, by simp⟩
      · have hne : cur2 ≠ [] := by
          intro hx
          rw [hx] at hgl
          simp at hgl
        have hlast : cur2.getLast hne = lastc := by
          have hq := List.getLast?_eq_getLast cur2 hne
          rw [hq] at hgl
          exact Option.some.inj hgl
        have hdecomp : cur2.dropLast ++ [lastc] = cur2 := by
          have h1 := List.dropLast_append_getLast hne
          rw [hlast] at h1
          exact h1
        have hflat2 : cur2.flatten = cur2.dropLast.flatten ++ lastc := by
          conv_lhs => rw [← hdecomp]
          simp [List.flatten_append]
        refine ⟨[], lastc ++ rest3.flatten, ?_⟩
        simp only [List.nil_append]
        rw [← hflat, hflat2]
        simp [List.append_assoc]
    constructor
    · intro l hl
      rcases hgl : cur2.getLast? with _ | lastc
      · rw [hgl] at hl
        dsimp only at hl
        split_ifs at hl with hnil
        rw [← Option.some.inj hl]
        exact hfull
      · rw [hgl] at hl
        dsimp only at hl
        split_ifs at hl with hws hnil hnil
        · rw [← Option.some.inj hl]
          exact hdrop
        · rw [← Option.some.inj hl]
          exact hfull
    · exact ⟨cur2.flatten, hflat.symm⟩
  rcases hrest : rest with _ | ⟨ch, rest2⟩
  · subst hrest
    dsimp only
    apply hmain cur []
    simp only [List.flatten_nil, List.append_nil]
    rw [← hsplit]
    simp
  · dsimp only
    by_cases hlong : w < ch.length
    · rw [if_pos hlong]
      dsimp only
      apply hmain (cur ++ [(handleLong w ((cur.map List.length).sum) ch).1])
        ((handleLong w ((cur.map List.length).sum) ch).2 :: rest2)
      rw [← hsplit, hrest]
      simp only [List.flatten_append, List.flatten_cons, List.flatten_nil, List.append_nil,
        List.append_assoc]
      rw [← List.append_assoc (handleLong w ((cur.map List.length).sum) ch).1, handleLong_append]
    · rw [if_neg hlong]
      apply hmain cur (ch :: rest2)
      rw [← hsplit, hrest]
      simp [List.flatten_append]

lemma oneLine_spec (w : ℕ) (em : Bool) (chunks : List PyStr) :
    (∀ l, (oneLine w em chunks).1 = some l → SubSeg l chunks.flatten) ∧
    ∃ pre, chunks.flatten = pre ++ (oneLine w em chunks).2.flatten := by
  unfold oneLine
  rcases chunks with _ | ⟨ch, rest⟩
  · exact oneLineBody_spec w []
  · dsimp only
    split_ifs with hdrop
    · obtain ⟨hsub, pre, hpre⟩ := oneLineBody_spec w rest
      constructor
      · intro l hl
        obtain ⟨p1, p2, hp⟩ := hsub l hl
        exact ⟨ch ++ p1, p2, by simp [hp, List.append_assoc]⟩
      · exact ⟨ch ++ pre, by simp [hpre, List.append_assoc]⟩
    · exact oneLineBody_spec w (ch :: rest)

lemma wrapChunksAux_SubSeg (w : ℕ) : ∀ (fuel : ℕ) (em : Bool) (chunks : List PyStr),
    ∀ l ∈ wrapChunksAux w fuel em chunks, SubSeg l chunks.flatten := by
  intro fuel
  induction fuel with
  | zero => intro em chunks l hl; simp [wrapChunksAux] at hl
  | succ fuel ih =>
    intro em chunks l hl
    cases chunks with
    | nil => simp [wrapChunksAux] at hl
    | cons c cs =>
      rw [wrapChunksAux] at hl
      obtain ⟨hsub, pre, hpre⟩ := oneLine_spec w em (c :: cs)
      rcases hone : oneLine w em (c :: cs) with ⟨ln?, rest⟩
      rw [hone] at hl hpre
      rw [hone] at hsub
      cases ln? with
      | some line =>
        dsimp only at hl hsub hpre
        rcases List.mem_cons.1 hl with rfl | hmem
        · exact hsub l rfl
        · obtain ⟨p1, p2, hp⟩ := ih true rest l hmem
          exact ⟨pre ++ p1, p2, by rw [hpre, hp]; simp [List.append_assoc]⟩
      | none =>
        dsimp only at hl hpre
        obtain ⟨p1, p2, hp⟩ := ih em rest l hl
        exact ⟨pre ++ p1, p2, by rw [hpre, hp]; simp [List.append_assoc]⟩

lemma pyWrap_SubSeg (w : ℕ) (s : PyStr) :
    ∀ l ∈ pyWrap w s, SubSeg l (mungeWs s) := by
  intro l hl
  have := wrapChunksAux_SubSeg w (2 * (chunksLen (splitChunks (mungeWs s)) +
    (splitChunks (mungeWs s)).length) + 2) false (splitChunks (mungeWs s)) l hl
  rwa [splitChunks_flatten] at this

/-! ### Non-emptiness of wrapped output for inputs with a word character -/

/-- The chunk list still holds a character that is not a space. -/
def hasWordChunk (chunks : List PyStr) : Prop := ∃ ch ∈ chunks, ∃ c ∈ ch, c ≠ ' '

lemma chunksLen_cons (ch : PyStr) (rest : List PyStr) :
    chunksLen (ch :: rest) = ch.length + chunksLen rest := by
  simp [chunksLen]

lemma isWsChunk_all {ch : PyStr} (h : isWsChunk ch = true) : ∀ c ∈ ch, c = ' ' := by
  intro c hc
  have := List.all_eq_true.1 h c hc
  simpa using this

lemma cur3_nil_cases (cur2 : List PyStr)
    (h : (match cur2.getLast? with
        | some lastc => if isWsChunk lastc = true then cur2.dropLast else cur2
        | none => cur2 : List PyStr) = []) :
    cur2 = [] ∨ ∃ lastc, cur2 = [lastc] ∧ isWsChunk lastc = true := by
  rcases hgl : cur2.getLast? with _ | lastc
  · rw [hgl] at h
    exact Or.inl h
  · rw [hgl] at h
    dsimp only at h
    split_ifs at h with hws
    · right
      refine ⟨lastc, ?_, hws⟩
      have hne : cur2 ≠ [] := by
        intro hx
        rw [hx] at hgl
        simp at hgl
      have hlast : cur2.getLast hne = lastc := by
        have hq := List.getLast?_eq_getLast cur2 hne
        rw [hq] at hgl
        exact Option.some.inj hgl
      have hdecomp : cur2.dropLast ++ [lastc] = cur2 := by
        have h1 := List.dropLast_append_getLast hne
        rw [hlast] at h1
        exact h1
      rw [← hdecomp, h]
      rfl
    · exact Or.inl h

lemma fillLine_cons_fst_nil {w k : ℕ} {ch : PyStr} {rest r2 : List PyStr}
    (h : fillLine w k (ch :: rest) = ([], r2)) : ¬ (k + ch.length ≤ w) := by
  intro hfit
  rw [fillLine, if_pos hfit] at h
  simp at h

lemma handleLong_snd_length_lt (w : ℕ) (hw : 1 ≤ w) (ch : PyStr) (hlong : w < ch.length) :
    ((handleLong w 0 ch).2).length < ch.length := by
  have hpos : ∀ e : ℕ, 1 ≤ e → (ch.drop e).length < ch.length := by
    intro e he
    rw [List.length_drop]
    omega
  unfold handleLong
  dsimp only
  have hsl : (if w < 1 then 1 else w - 0) = w := by
    rw [if_neg (by omega)]
    omega
  rw [hsl, if_pos hlong]
  rcases hr : lastIdxOf '-' (ch.take w) with _ | hy
  · exact hpos w hw
  · dsimp only
    split_ifs with h2
    · exact hpos (hy + 1) (by omega)
    · exact hpos w hw

lemma mem_handleLong_snd (w : ℕ) (ch : PyStr) (c : Char) (hc : c ∈ ch) (hcs : c ≠ ' ')
    (hws : ∀ d ∈ (handleLong w 0 ch).1, d = ' ') : c ∈ (handleLong w 0 ch).2 := by
  have happ := handleLong_append w 0 ch
  rw [← happ] at hc
  rcases List.mem_append.1 hc with h | h
  · exact absurd (hws c h) hcs
  · exact h

lemma oneLineBody_none (w : ℕ) (hw : 1 ≤ w) (c1 : List PyStr)
    (h : (oneLineBody w c1).1 = none) :
    c1 = [] ∨
    (chunksLen (oneLineBody w c1).2 + (oneLineBody w c1).2.length <
        chunksLen c1 + c1.length ∧
      (hasWordChunk c1 → hasWordChunk (oneLineBody w c1).2)) := by
  obtain ⟨cur, rest, hfr⟩ : ∃ cur rest, fillLine w 0 c1 = (cur, rest) := ⟨_, _, rfl⟩
  have hsplit : cur ++ rest = c1 := by
    have := flatten_fillLine w 0 c1
    rwa [hfr] at this
  unfold oneLineBody at h ⊢
  rw [hfr] at h ⊢
  dsimp only at h ⊢
  rcases hrest : rest with _ | ⟨ch, rest2⟩
  · subst hrest
    dsimp only at h ⊢
    split_ifs at h with hnil
    rcases cur3_nil_cases cur hnil with hcur | ⟨lastc, hcur, hws⟩
    · left
      rw [← hsplit, hcur]
      rfl
    · right
      subst hcur
      constructor
      · rw [← hsplit]
        simp [chunksLen]
      · rintro ⟨x, hx, c, hc, hcs⟩
        rw [← hsplit] at hx
        simp only [List.append_nil, List.mem_singleton] at hx
        subst hx
        exact absurd (isWsChunk_all hws c hc) hcs
  · subst hrest
    dsimp only at h ⊢
    by_cases hlong : w < ch.length
    · rw [if_pos hlong] at h ⊢
      dsimp only at h ⊢
      split_ifs at h with hnil
      rcases cur3_nil_cases _ hnil with hcur | ⟨lastc, hcur, hws⟩
      · exact absurd hcur (by simp)
      · right
        have hcurnil : cur = [] := by
          have hlen := congrArg List.length hcur
          simp [List.length_append] at hlen
          exact hlen
        subst hcurnil
        have ht1 : (handleLong w ((List.map List.length ([] : List PyStr)).sum) ch).1 = lastc := by
          simpa using hcur
        have hc1eq : c1 = ch :: rest2 := by rw [← hsplit]; rfl
        have hsum : (List.map List.length ([] : List PyStr)).sum = 0 := rfl
        constructor
        · rw [hc1eq]
          rw [chunksLen_cons, chunksLen_cons]
          have := handleLong_snd_length_lt w hw ch hlong
          rw [hsum]
          simp only [List.length_cons]
          omega
        · rintro ⟨x, hx, c, hc, hcs⟩
          rw [hc1eq] at hx
          rcases List.mem_cons.1 hx with hxe | hmem
          · subst hxe
            refine ⟨(handleLong w ((List.map List.length ([] : List PyStr)).sum) x).2,
              by simp, c, ?_, hcs⟩
            rw [hsum]
            apply mem_handleLong_snd w x c hc hcs
            intro d hd
            rw [hsum] at ht1
            rw [ht1] at hd
            exact isWsChunk_all hws d hd
          · exact ⟨x, by simp [hmem], c, hc, hcs⟩
    · rw [if_neg hlong] at h ⊢
      dsimp only at h ⊢
      split_ifs at h with hnil
      rcases cur3_nil_cases cur hnil with hcur | ⟨lastc, hcur, hws⟩
      · exfalso
        subst hcur
        have hc1 : c1 = ch :: rest2 := by rw [← hsplit]; rfl
        rw [hc1] at hfr
        exact fillLine_cons_fst_nil hfr (by omega)
      · right
        subst hcur
        have hc1eq : c1 = lastc :: ch :: rest2 := by rw [← hsplit]; rfl
        constructor
        · rw [hc1eq]
          simp only [chunksLen_cons, List.length_cons]
          omega
        · rintro ⟨x, hx, c, hc, hcs⟩
          rw [hc1eq] at hx
          rcases List.mem_cons.1 hx with rfl | hmem
          · exact absurd (isWsChunk_all hws c hc) hcs
          · exact ⟨x, hmem, c, hc, hcs⟩

lemma oneLine_none_progress (w : ℕ) (hw : 1 ≤ w) (em : Bool) (chunks : List PyStr)
    (hne : chunks ≠ []) (h : (oneLine w em chunks).1 = none) :
    chunksLen (oneLine w em chunks).2 + (oneLine w em chunks).2.length <
      chunksLen chunks + chunks.length ∧
    (hasWordChunk chunks → hasWordChunk (oneLine w em chunks).2) := by
  rcases chunks with _ | ⟨ch, rest⟩
  · exact absurd rfl hne
  · unfold oneLine at h ⊢
    dsimp only at h ⊢
    split_ifs at h ⊢ with hdrop
    · rcases oneLineBody_none w hw rest h with hnil | ⟨hlt, hword⟩
      · subst hnil
        constructor
        · have h2 : (oneLineBody w ([] : List PyStr)).2 = [] := rfl
          rw [h2]
          simp only [chunksLen_cons, List.length_cons]
          simp [chunksLen]
        · rintro ⟨x, hx, c, hc, hcs⟩
          simp only [List.mem_singleton] at hx
          subst hx
          exact absurd (isWsChunk_all hdrop.2 c hc) hcs
      · constructor
        · rw [chunksLen_cons]
          simp only [List.length_cons]
          omega
        · rintro ⟨x, hx, c, hc, hcs⟩
          rcases List.mem_cons.1 hx with rfl | hmem
          · exact absurd (isWsChunk_all hdrop.2 c hc) hcs
          · exact hword ⟨x, hmem, c, hc, hcs⟩
    · rcases oneLineBody_none w hw (ch :: rest) h with hnil | ⟨hlt, hword⟩
      · exact absurd hnil (by simp)
      · exact ⟨hlt, hword⟩

lemma wrapChunksAux_ne_nil (w : ℕ) (hw : 1 ≤ w) :
    ∀ (fuel : ℕ) (chunks : List PyStr) (em : Bool),
      chunksLen chunks + chunks.length < fuel → hasWordChunk chunks →
      wrapChunksAux w fuel em chunks ≠ [] := by
  intro fuel
  induction fuel with
  | zero => intro chunks em hm; omega
  | succ fuel ih =>
    intro chunks em hm hword
    rcases chunks with _ | ⟨c, cs⟩
    · rcases hword with ⟨ch, hch, _⟩
      simp at hch
    · rw [wrapChunksAux]
      rcases hone : oneLine w em (c :: cs) with ⟨ln?, rest⟩
      cases ln? with
      | some line => simp
      | none =>
        have hprog := oneLine_none_progress w hw em (c :: cs) (by simp) (by rw [hone])
        rw [hone] at hprog
        dsimp only at hprog ⊢
        exact ih rest em (by omega) (hprog.2 hword)

lemma pyWrap_ne_nil (w : ℕ) (s : PyStr) (hw : 1 ≤ w)
    (hword : ∃ c ∈ mungeWs s, c ≠ ' ') : pyWrap w s ≠ [] := by
  unfold pyWrap
  apply wrapChunksAux_ne_nil w hw _ _ false (by omega)
  obtain ⟨c, hc, hcs⟩ := hword
  rw [← splitChunks_flatten (mungeWs s)] at hc
  obtain ⟨ch, hch, hc'⟩ := List.mem_flatten.1 hc
  exact ⟨ch, hch, c, hc', hcs⟩

/-! ### Transport of non-whitespace characters through the normalisation
pipeline, and structural facts about `str.strip` -/

lemma dropWhile_head_false {α : Type} {p : α → Bool} {l res : List α} {a : α}
    (h : l.dropWhile p = a :: res) : p a = false := by
  induction l with
  | nil => simp at h
  | cons x xs ih =>
    rw [List.dropWhile_cons] at h
    split_ifs at h with hp
    · exact ih h
    · cases h
      simpa using hp

lemma pyStrip_last_not_space (r : PyStr) {l : PyStr} {c : Char}
    (h : pyStrip r = l ++ [c]) : isPySpace c = false := by
  unfold pyStrip pyRStrip at h
  have h2 : (pyLStrip r).reverse.dropWhile isPySpace = c :: l.reverse := by
    have h' := congrArg List.reverse h
    rw [List.reverse_reverse, List.reverse_append] at h'
    simpa using h'
  exact dropWhile_head_false h2

lemma pyStrip_ne_nil_of_mem (r : PyStr) (c : Char) (hc : c ∈ r)
    (hcs : isPySpace c = false) : pyStrip r ≠ [] := by
  intro h
  unfold pyStrip pyRStrip at h
  have h1 : (pyLStrip r).reverse.dropWhile isPySpace = [] := by
    have h' := congrArg List.reverse h
    simpa using h'
  have hall : ∀ a ∈ (pyLStrip r).reverse, isPySpace a := List.dropWhile_eq_nil_iff.1 h1
  have hcl : c ∈ pyLStrip r := by
    have hsplit : c ∈ r.takeWhile isPySpace ++ r.dropWhile isPySpace := by
      rw [List.takeWhile_append_dropWhile]
      exact hc
    rcases List.mem_append.1 hsplit with h' | h'
    · exact absurd (List.mem_takeWhile_imp h') (by simp [hcs])
    · exact h'
  exact absurd (hall c (List.mem_reverse.2 hcl)) (by simp [hcs])

lemma pyStrip_has_nonspace (r : PyStr) (h : pyStrip r ≠ []) :
    ∃ c ∈ pyStrip r, isPySpace c = false := by
  obtain ⟨d, hd⟩ : ∃ d, (pyStrip r).getLast? = some d := by
    rcases hx : (pyStrip r).getLast? with _ | d
    · exact absurd (List.getLast?_eq_none_iff.1 hx) h
    · exact ⟨d, rfl⟩
  have hlast : (pyStrip r).getLast h = d := by
    have hq := List.getLast?_eq_getLast (pyStrip r) h
    rw [hq] at hd
    exact Option.some.inj hd
  have hdecomp : (pyStrip r).dropLast ++ [d] = pyStrip r := by
    have h1 := List.dropLast_append_getLast h
    rw [hlast] at h1
    exact h1
  refine ⟨d, ?_, pyStrip_last_not_space r hdecomp.symm⟩
  rw [← hdecomp]
  simp

lemma pyStrip_drop_ne_nil (r : PyStr) (n : ℕ) {l0 : PyStr}
    (htake : (pyStrip r).take n = l0 ++ [' ']) :
    pyStrip ((pyStrip r).drop n) ≠ [] := by
  by_cases hlen : (pyStrip r).length ≤ n
  · exfalso
    rw [List.take_of_length_le hlen] at htake
    exact absurd (pyStrip_last_not_space r htake) (by decide)
  · push_neg at hlen
    have hdne : (pyStrip r).drop n ≠ [] := by
      intro hx
      have hl := congrArg List.length hx
      rw [List.length_drop] at hl
      simp at hl
      omega
    obtain ⟨d, hd⟩ : ∃ d, ((pyStrip r).drop n).getLast? = some d := by
      rcases hx : ((pyStrip r).drop n).getLast? with _ | d
      · exact absurd (List.getLast?_eq_none_iff.1 hx) hdne
      · exact ⟨d, rfl⟩
    have hlast : ((pyStrip r).drop n).getLast hdne = d := by
      have hq := List.getLast?_eq_getLast ((pyStrip r).drop n) hdne
      rw [hq] at hd
      exact Option.some.inj hd
    have hdecomp : ((pyStrip r).drop n).dropLast ++ [d] = (pyStrip r).drop n := by
      have h1 := List.dropLast_append_getLast hdne
      rw [hlast] at h1
      exact h1
    have hs : pyStrip r = ((pyStrip r).take n ++ ((pyStrip r).drop n).dropLast) ++ [d] := by
      conv_lhs => rw [← List.take_append_drop n (pyStrip r), ← hdecomp]
      rw [List.append_assoc]
    have hdns : isPySpace d = false := pyStrip_last_not_space r hs
    apply pyStrip_ne_nil_of_mem _ d _ hdns
    rw [← hdecomp]
    exact List.mem_append.2 (Or.inr (by simp))

lemma mem_expandTabsAux {c : Char} (hc : c ≠ '\t') :
    ∀ (col : ℕ) (l : List Char), c ∈ l → c ∈ expandTabsAux 8 col l := by
  intro col l
  induction l generalizing col with
  | nil =>
    intro h
    simp at h
  | cons x xs ih =>
    intro h
    simp only [expandTabsAux]
    rcases List.mem_cons.1 h with rfl | hmem
    · rw [if_neg hc]
      split_ifs with hnl
      · exact List.mem_cons_self _ _
      · exact List.mem_cons_self _ _
    · by_cases ht : x = '\t'
      · rw [if_pos ht, if_pos (by norm_num)]
        exact List.mem_append.2 (Or.inr (ih _ hmem))
      · rw [if_neg ht]
        split_ifs with hnl
        · exact List.mem_cons_of_mem _ (ih _ hmem)
        · exact List.mem_cons_of_mem _ (ih _ hmem)

lemma mem_mungeWs {c : Char} (s : PyStr) (hc : c ∈ s) (hws : isWrapWs c = false) :
    c ∈ mungeWs s := by
  unfold mungeWs
  have hct : c ≠ '\t' := by
    intro h
    rw [h] at hws
    exact absurd hws (by decide)
  have h1 : c ∈ expandTabsAux 8 0 s := mem_expandTabsAux hct 0 s hc
  have h2 := List.mem_map_of_mem (fun d => if isWrapWs d then ' ' else d) h1
  simpa [hws] using h2

lemma isPySpace_of_isWrapWs {c : Char} (h : isWrapWs c = true) : isPySpace c = true := by
  simp only [isWrapWs, Bool.or_eq_true, beq_iff_eq] at h
  rcases h with ((((h | h) | h) | h) | h) | h <;> subst h <;> decide

lemma isPySpace_toUpper {c : Char} (h : isPySpace c = false) :
    isPySpace c.toUpper = false := by
  have hdef : c.toUpper =
      if c.toNat ≥ 97 ∧ c.toNat ≤ 122 then Char.ofNat (c.toNat - 32) else c := rfl
  rw [hdef]
  split_ifs with hr
  · obtain ⟨h1, h2⟩ := hr
    have hb : 65 ≤ c.toNat - 32 ∧ c.toNat - 32 ≤ 90 := by omega
    generalize hg : c.toNat - 32 = m at hb ⊢
    obtain ⟨hb1, hb2⟩ := hb
    interval_cases m <;> decide
  · exact h

lemma take_ne_of_take_take {s t u : PyStr} {m n : ℕ} (hmn : m ≤ n)
    (hm : s.take m = t) (hne : u.take m ≠ t) : s.take n ≠ u := by
  intro hc
  apply hne
  rw [← hc, List.take_take, Nat.min_eq_left hmn]
  exact hm

/-- The heading text extracted by a `#`-heading branch: the stripped line
with the `k` marker characters and the following space removed, then
re-stripped. -/
def heading_text (k : ℕ) (raw_line : PyStr) : PyStr :=
  pyStrip ((pyStrip (strip_basic_markdown raw_line)).drop (k + 1))

/-- The bullet text extracted by the bullet branch: the stripped line with
the two marker characters removed, then re-stripped. -/
def bullet_text (raw_line : PyStr) : PyStr :=
  pyStrip ((pyStrip (strip_basic_markdown raw_line)).drop 2)

/-- Claim C3: a body line whose stripped form (after removing bold markers
and backquote characters) starts with 1, 2 or 3 `#` characters followed by
a space is normalised to a blank separator line immediately followed by the
heading text uppercased and word-wrapped, one output line per wrapped
segment; the wrapped heading is non-empty (so a blank line always precedes
a heading), and every emitted segment is a contiguous substring of the
whitespace-normalised uppercased heading text, so wrapping never inserts a
hyphen (or any other character) into a word. -/
theorem heading_normalization (w k : ℕ) (raw : PyStr)
    (hw : 1 ≤ w) (hk : k = 1 ∨ k = 2 ∨ k = 3)
    (htake : (pyStrip (strip_basic_markdown raw)).take (k + 1) =
      List.replicate k '#' ++ [' ']) :
    processOne w raw = [] :: pyWrap w (pyUpper (heading_text k raw)) ∧
    pyWrap w (pyUpper (heading_text k raw)) ≠ [] ∧
    ∀ seg ∈ pyWrap w (pyUpper (heading_text k raw)),
      SubSeg seg (mungeWs (pyUpper (heading_text k raw))) := by
  have hht : heading_text k raw ≠ [] := pyStrip_drop_ne_nil _ _ htake
  have hword : ∃ c ∈ mungeWs (pyUpper (heading_text k raw)), c ≠ ' ' := by
    obtain ⟨c, hc, hcs⟩ :=
      pyStrip_has_nonspace ((pyStrip (strip_basic_markdown raw)).drop (k + 1)) hht
    refine ⟨c.toUpper, mem_mungeWs _ (List.mem_map_of_mem Char.toUpper hc) ?_, ?_⟩
    · cases hx : isWrapWs c.toUpper
      · rfl
      · exact absurd (isPySpace_of_isWrapWs hx) (by simp [isPySpace_toUpper hcs])
    · intro hx
      have h1 := isPySpace_toUpper hcs
      rw [hx] at h1
      exact absurd h1 (by decide)
  have hwrapne : pyWrap w (pyUpper (heading_text k raw)) ≠ [] :=
    pyWrap_ne_nil w _ hw hword
  refine ⟨?_, hwrapne, pyWrap_SubSeg w _⟩
  rcases hk with rfl | rfl | rfl
  · have h2 : (pyStrip (strip_basic_markdown raw)).take 2 = pys "# " := by
      rw [show (2 : ℕ) = 1 + 1 from rfl, htake]
      decide
    have hne : pyStrip (strip_basic_markdown raw) ≠ [] := by
      intro hx
      rw [hx] at h2
      exact absurd h2 (by decide)
    have h4ne : ¬ (pyStrip (strip_basic_markdown raw)).take 4 = pys "### " :=
      take_ne_of_take_take (by norm_num) h2 (by decide)
    have h3ne : ¬ (pyStrip (strip_basic_markdown raw)).take 3 = pys "## " :=
      take_ne_of_take_take (by norm_num) h2 (by decide)
    rw [processOne, if_neg hne, if_neg h4ne, if_neg h3ne, if_pos h2,
      show pyStrip ((pyStrip (strip_basic_markdown raw)).drop 2) =
        heading_text 1 raw from rfl,
      if_neg hht]
  · have h3 : (pyStrip (strip_basic_markdown raw)).take 3 = pys "## " := by
      rw [show (3 : ℕ) = 2 + 1 from rfl, htake]
      decide
    have hne : pyStrip (strip_basic_markdown raw) ≠ [] := by
      intro hx
      rw [hx] at h3
      exact absurd h3 (by decide)
    have h4ne : ¬ (pyStrip (strip_basic_markdown raw)).take 4 = pys "### " :=
      take_ne_of_take_take (by norm_num) h3 (by decide)
    rw [processOne, if_neg hne, if_neg h4ne, if_pos h3,
      show pyStrip ((pyStrip (strip_basic_markdown raw)).drop 3) =
        heading_text 2 raw from rfl,
      if_neg hht]
  · have h4 : (pyStrip (strip_basic_markdown raw)).take 4 = pys "### " := by
      rw [show (4 : ℕ) = 3 + 1 from rfl, htake]
      decide
    have hne : pyStrip (strip_basic_markdown raw) ≠ [] := by
      intro hx
      rw [hx] at h4
      exact absurd h4 (by decide)
    rw [processOne, if_neg hne, if_pos h4,
      show pyStrip ((pyStrip (strip_basic_markdown raw)).drop 4) =
        heading_text 3 raw from rfl,
      if_neg hht]

/-- Witness for Claim C3 at a concrete input: the line `## Key **Terms**`
strips to a 2-`#` heading marker and is normalised to a blank separator
line followed by the single wrapped segment `KEY TERMS`. -/
theorem heading_normalization_witness :
    (pyStrip (strip_basic_markdown (pys "## Key **Terms**"))).take (2 + 1) =
      List.replicate 2 '#' ++ [' '] ∧
    processOne 43 (pys "## Key **Terms**") = [[], pys "KEY TERMS"] := by
  refine ⟨by decide, ?_⟩
  have h := heading_normalization 43 2 (pys "## Key **Terms**") (by decide)
    (by decide) (by decide)
  rw [h.1]
  decide

/-- Claim C4: a body line whose stripped form starts with the dash-bullet
marker `- ` has the marker stripped and the remainder word-wrapped; the
wrap result is non-empty, its first segment is emitted prefixed with the
bullet glyph, and every continuation segment is emitted prefixed with a
two-space hanging indent and no glyph. -/
theorem bullet_normalization (w : ℕ) (raw : PyStr)
    (hw : 1 ≤ w)
    (htake : (pyStrip (strip_basic_markdown raw)).take 2 = pys "- ") :
    pyWrap w (bullet_text raw) ≠ [] ∧
    processOne w raw =
      (bulletMark ++ (pyWrap w (bullet_text raw)).headI) ::
        (pyWrap w (bullet_text raw)).tail.map (fun s => pys "  " ++ s) := by
  have htake' : (pyStrip (strip_basic_markdown raw)).take 2 = ['-'] ++ [' '] := by
    rw [htake]
    decide
  have hbt : bullet_text raw ≠ [] := pyStrip_drop_ne_nil _ _ htake'
  have hword : ∃ c ∈ mungeWs (bullet_text raw), c ≠ ' ' := by
    obtain ⟨c, hc, hcs⟩ :=
      pyStrip_has_nonspace ((pyStrip (strip_basic_markdown raw)).drop 2) hbt
    refine ⟨c, mem_mungeWs _ hc ?_, ?_⟩
    · cases hx : isWrapWs c
      · rfl
      · exact absurd (isPySpace_of_isWrapWs hx) (by simp [hcs])
    · intro hx
      rw [hx] at hcs
      exact absurd hcs (by decide)
  have hwrapne : pyWrap w (bullet_text raw) ≠ [] := pyWrap_ne_nil w _ hw hword
  refine ⟨hwrapne, ?_⟩
  have hne : pyStrip (strip_basic_markdown raw) ≠ [] := by
    intro hx
    rw [hx] at htake
    exact absurd htake (by decide)
  have h4ne : ¬ (pyStrip (strip_basic_markdown raw)).take 4 = pys "### " :=
    take_ne_of_take_take (by norm_num) htake (by decide)
  have h3ne : ¬ (pyStrip (strip_basic_markdown raw)).take 3 = pys "## " :=
    take_ne_of_take_take (by norm_num) htake (by decide)
  have h2ne : ¬ (pyStrip (strip_basic_markdown raw)).take 2 = pys "# " := by
    rw [htake]
    decide
  rw [processOne, if_neg hne, if_neg h4ne, if_neg h3ne, if_neg h2ne,
    if_pos (Or.inl htake),
    show pyStrip ((pyStrip (strip_basic_markdown raw)).drop 2) =
      bullet_text raw from rfl]
  simp only []
  rw [if_neg hwrapne]
  rcases hwv : pyWrap w (bullet_text raw) with _ | ⟨w0, ws⟩
  · exact absurd hwv hwrapne
  · rfl

/-- Witness for Claim C4 at a concrete input: the line
`- alpha beta gamma` at width 10 wraps the bullet text into two segments;
the first is emitted with the bullet glyph, the second with a two-space
hanging indent. -/
theorem bullet_normalization_witness :
    (pyStrip (strip_basic_markdown (pys "- alpha beta gamma"))).take 2 = pys "- " ∧
    processOne 10 (pys "- alpha beta gamma") =
      [bulletMark ++ pys "alpha beta", pys "  " ++ pys "gamma"] := by
  refine ⟨by decide, ?_⟩
  have h := bullet_normalization 10 (pys "- alpha beta gamma") (by decide) (by decide)
  rw [h.2]
  decide

end StudyPilot
